import Mathlib

/-!
# libhdfs3 `rpc/SaslClient.cpp`

A shallow embedding of `calculateIV`, `AESClient` and `SaslClient` and the properties
proved about them.

Conventions of the embedding.
* A `char` of a `std::string` is a `Byte` (its value as `unsigned char`); a `std::string`
  or a `(pointer, length)` buffer is a `List Byte`.
* `long` is 64 bits wide and `unsigned` is 32 bits wide (LP64). The casts of `calculateIV`
  are written out with `% 2 ^ w`.
* `int` is 32 bits wide and `size_t` is 64 bits wide. A length stored in an `int`
  (`int i = initIV.length()`, `int remaining = input_len`) goes through `toInt32`: at
  `2 ^ 31` bytes and above the value changes. Arithmetic on `int` values is exact, since
  signed overflow is undefined.
* OpenSSL (`EVP_*`) and libgsasl (`gsasl_*`) are external: they are parameters of the
  definitions (`Evp`, `Gsasl`).
-/

namespace Hdfs
namespace Internal

/-! ## Data model -/

/-- One `char`, by its value as `unsigned char`. -/
abbrev Byte := Fin 256

/-- The conversion `(unsigned char) n`. -/
def toUChar (n : Nat) : Byte := ⟨n % 256, Nat.mod_lt _ (by decide)⟩

/-- The conversion of a `size_t` value to `int`: the value modulo `2 ^ 32`, read as a
signed 32-bit integer. -/
def toInt32 (n : Nat) : Int := ((n : Int) + 2147483648) % 4294967296 - 2147483648

/-- The exceptions thrown in `SaslClient.cpp`. -/
inductive HdfsException
  | HdfsIOException
  | AccessControlException
  | bad_alloc
  deriving DecidableEq, Repr

/-- How a call of a member function ends: it returns a value, it throws, or its loop
was still running when the iteration budget of the model ran out. -/
inductive Outcome (α : Type)
  | returned (a : α)
  | thrown (e : HdfsException)
  | outOfFuel
  deriving DecidableEq, Repr

/-! ## `calculateIV` (lines 49-68) -/

/-- The `while (i-- > 0)` loop of `calculateIV`. The first argument is the value of `i`
tested by the loop condition; the body runs with `i` already decremented. `sum` is never
above `2 * 255 + 1`, so the `int` arithmetic on it is exact. -/
def calculateIVLoop (initIV : List Byte) :
    Nat → Nat → Nat → Int → List Byte → List Byte
  | 0, _, _, _, IV => IV
  | i + 1, j, sum, counter, IV =>
    -- sum = (((unsigned char)initIV.c_str()[i]) & 0xff) + ((unsigned int)sum >> 8);
    let sum1 := ((initIV.getD i 0).val &&& 0xff) + ((sum % 2 ^ 32) >>> 8)
    if j < 8 then
      -- sum += (unsigned char) counter & 0xff;
      let sum2 := sum1 + ((counter % 256).toNat &&& 0xff)
      -- c = (unsigned long) counter;  with `unsigned c`
      let c : Nat := (counter % 2 ^ 64).toNat % 2 ^ 32
      -- c >>= (unsigned)8;  counter = c;
      let c : Nat := c >>> 8
      calculateIVLoop initIV i (j + 1) sum2 (c : Int) (IV.set i (toUChar sum2))
    else
      calculateIVLoop initIV i (j + 1) sum1 counter (IV.set i (toUChar sum1))

/-- `std::string calculateIV(std::string initIV, long counter)`. `IV` is resized to the
length of `initIV`; `int i = initIV.length()` is the converted length, and the loop does
not run when it is not positive. -/
def calculateIV (initIV : List Byte) (counter : Int) : List Byte :=
  calculateIVLoop initIV (toInt32 initIV.length).toNat 0 0 counter
    (List.replicate initIV.length 0)

/-- A byte string read as a big-endian unsigned integer. -/
def beValue (s : List Byte) : Nat := s.foldl (fun acc b => acc * 256 + b.val) 0

/-! ## `AESClient` (lines 81-194) -/

/-- The ciphers the constructor chooses from. -/
inductive EvpCipher
  | EVP_aes_256_ctr
  | EVP_aes_128_ctr
  | EVP_aes_192_ctr
  deriving DecidableEq, Repr

/-- The OpenSSL calls `AESClient` makes, over cipher contexts of type `σ`. -/
structure Evp (σ : Type) where
  /-- `EVP_CIPHER_CTX_new` and `EVP_CipherInit_ex(ctx, cipher, NULL, key, iv, enc)` with
  padding switched off; `none` when one of them reports failure. -/
  CipherInit : EvpCipher → List Byte → List Byte → Bool → Option σ
  /-- `EVP_CipherUpdate(ctx, out, &len, in, inl)`, given the `inl` bytes at `in` (none
  when `inl` is not positive) and `inl` itself: `none` when it returns 0, otherwise the
  context afterwards and the `len` bytes written to `out`. -/
  CipherUpdate : σ → List Byte → Int → Option (σ × List Byte)

/-- The data members of `AESClient` used in `SaslClient.cpp`. Their types are declared in
`SaslClient.h`; `packetsSent` and `decoffset` are taken wide enough never to wrap. -/
structure AESClient (σ : Type) where
  encrypt : σ
  decrypt : σ
  packetsSent : Int
  decoffset : Int
  bufsize : Int
  enckey : List Byte
  enciv : List Byte
  deckey : List Byte
  deciv : List Byte
  initdeciv : List Byte

/-- The cipher chosen at lines 107-113, from the length of `enckey`. -/
def selectCipher (enckey : List Byte) : EvpCipher :=
  if enckey.length = 32 then .EVP_aes_256_ctr
  else if enckey.length = 16 then .EVP_aes_128_ctr
  else .EVP_aes_192_ctr

/-- The constructor `AESClient::AESClient`. Both contexts get the cipher selected from
`enckey`. -/
def AESClient.construct {σ : Type} (evp : Evp σ) (enckey enciv deckey deciv : List Byte)
    (bufsize : Int) : Except HdfsException (AESClient σ) :=
  let cipher := selectCipher enckey
  match evp.CipherInit cipher enckey enciv true with
  | none => .error .HdfsIOException
  | some encrypt =>
    match evp.CipherInit cipher deckey deciv false with
    | none => .error .HdfsIOException
    | some decrypt =>
      .ok { encrypt := encrypt, decrypt := decrypt, packetsSent := 0, decoffset := 0,
            bufsize := bufsize, enckey := enckey, enciv := enciv, deckey := deckey,
            deciv := deciv, initdeciv := deciv }

/-- The `n` bytes at `input + offset`. -/
def bytesAt (input : List Byte) (offset n : Int) : List Byte :=
  (input.drop offset.toNat).take n.toNat

/-- The buffer `buf` after `out` was written at `&buf[offset]`; the size of the string
does not change. -/
def writeAt (buf : List Byte) (offset : Int) (out : List Byte) : List Byte :=
  (buf.take offset.toNat ++ out ++ buf.drop (offset.toNat + out.length)).take buf.length

/-- How the `while (remaining > bufsize)` loop ends. `calls` lists the calls of
`EVP_CipherUpdate` so far, in call order: the bytes given and the length `inl`. -/
inductive LoopExit (σ : Type)
  | done (ctx : σ) (result : List Byte) (offset remaining : Int)
      (calls : List (List Byte × Int))
  | failed (ctx : σ) (calls : List (List Byte × Int))
  | outOfFuel (ctx : σ) (calls : List (List Byte × Int))

/-- The loop `while (remaining > bufsize)` of `encode` and `decode` (lines 146-154 and
174-182), with at most `fuel` iterations. -/
def whileRemaining {σ : Type} (update : σ → List Byte → Int → Option (σ × List Byte))
    (bufsize : Int) (input : List Byte) :
    Nat → σ → List Byte → Int → Int → List (List Byte × Int) → LoopExit σ
  | fuel, ctx, result, offset, remaining, calls =>
    if remaining > bufsize then
      match fuel with
      | 0 => .outOfFuel ctx calls
      | fuel + 1 =>
        let chunk := bytesAt input offset bufsize
        match update ctx chunk bufsize with
        | none => .failed ctx (calls ++ [(chunk, bufsize)])
        | some (ctx', out) =>
          -- offset += len; remaining -= len;
          whileRemaining update bufsize input fuel ctx' (writeAt result offset out)
            (offset + out.length) (remaining - out.length) (calls ++ [(chunk, bufsize)])
    else .done ctx result offset remaining calls

/-- What one run of the body shared by `encode` and `decode` leaves behind. -/
structure CipherRun (σ : Type) where
  ctx : σ
  outcome : Outcome (List Byte)
  calls : List (List Byte × Int)

/-- The body shared by `encode` (lines 140-163) and `decode` (lines 168-190) on the
context `ctx`. `result` is resized to `input_len`; `int remaining = input_len` is the
converted length. The loop gets `input_len` iterations, enough whenever each call of the
primitive consumes at least one byte. -/
def cipherRun {σ : Type} (update : σ → List Byte → Int → Option (σ × List Byte))
    (bufsize : Int) (ctx : σ) (input : List Byte) : CipherRun σ :=
  match whileRemaining update bufsize input input.length ctx
      (List.replicate input.length 0) 0 (toInt32 input.length) [] with
  | .outOfFuel ctx calls => ⟨ctx, .outOfFuel, calls⟩
  | .failed ctx calls => ⟨ctx, .thrown .HdfsIOException, calls⟩
  | .done ctx result offset remaining calls =>
    if remaining ≠ 0 then
      let chunk := bytesAt input offset remaining
      match update ctx chunk remaining with
      | none => ⟨ctx, .thrown .HdfsIOException, calls ++ [(chunk, remaining)]⟩
      | some (ctx', out) =>
        ⟨ctx', .returned (writeAt result offset out), calls ++ [(chunk, remaining)]⟩
    else ⟨ctx, .returned result, calls⟩

/-- The run of `AESClient::encode`, on the `encrypt` context. -/
def AESClient.encodeRun {σ : Type} (evp : Evp σ) (self : AESClient σ) (input : List Byte) :
    CipherRun σ :=
  cipherRun evp.CipherUpdate self.bufsize self.encrypt input

/-- The run of `AESClient::decode`, on the `decrypt` context. -/
def AESClient.decodeRun {σ : Type} (evp : Evp σ) (self : AESClient σ) (input : List Byte) :
    CipherRun σ :=
  cipherRun evp.CipherUpdate self.bufsize self.decrypt input

/-- `AESClient::encode`: the object afterwards and how the call ended. -/
def AESClient.encode {σ : Type} (evp : Evp σ) (self : AESClient σ) (input : List Byte) :
    AESClient σ × Outcome (List Byte) :=
  let r := self.encodeRun evp input
  ({ self with encrypt := r.ctx }, r.outcome)

/-- `AESClient::decode`: the object afterwards and how the call ended.
`decoffset += input_len` is reached only when no chunk failed. -/
def AESClient.decode {σ : Type} (evp : Evp σ) (self : AESClient σ) (input : List Byte) :
    AESClient σ × Outcome (List Byte) :=
  let r := self.decodeRun evp input
  match r.outcome with
  | .returned result =>
    ({ self with decrypt := r.ctx, decoffset := self.decoffset + input.length },
      .returned result)
  | other => ({ self with decrypt := r.ctx }, other)

/-! ### The counter-mode primitive -/

/-- A counter-mode context: what `EVP_CipherInit_ex` was given, and the number of stream
bytes consumed so far. -/
structure CtrCtx where
  cipher : EvpCipher
  key : List Byte
  iv : List Byte
  enc : Bool
  pos : Nat
  deriving DecidableEq, Repr

/-- XOR of `input` with the keystream bytes at positions `pos, pos + 1, ...`. -/
def ctrXor (stream : Nat → Byte) : Nat → List Byte → List Byte
  | _, [] => []
  | pos, b :: bs => (b ^^^ stream pos) :: ctrXor stream (pos + 1) bs

/-- OpenSSL in counter mode: the keystream is fixed by the key, the IV and the stream
position; an update XORs its input with the next keystream bytes. `EVP_CipherUpdate`
returns 0 on a negative `inl`; otherwise a counter-mode update does not fail. -/
def ctrEvp (keystream : List Byte → List Byte → Nat → Byte) : Evp CtrCtx where
  CipherInit cipher key iv enc := some ⟨cipher, key, iv, enc, 0⟩
  CipherUpdate ctx input inl :=
    if inl < 0 then none
    else
      some ({ ctx with pos := ctx.pos + input.length },
        ctrXor (keystream ctx.key ctx.iv) ctx.pos input)

/-- Successive `encode` calls on one object: the object afterwards and the outcomes. -/
def AESClient.encodeEach {σ : Type} (evp : Evp σ) :
    AESClient σ → List (List Byte) → AESClient σ × List (Outcome (List Byte))
  | self, [] => (self, [])
  | self, b :: bs =>
    let r := self.encode evp b
    let rest := AESClient.encodeEach evp r.1 bs
    (rest.1, r.2 :: rest.2)

/-- A call of `encode` or `decode`. -/
inductive AESCall
  | encode (input : List Byte)
  | decode (input : List Byte)
  deriving DecidableEq, Repr

/-- One call on the object. -/
def AESClient.call {σ : Type} (evp : Evp σ) (self : AESClient σ) :
    AESCall → AESClient σ × Outcome (List Byte)
  | .encode input => self.encode evp input
  | .decode input => self.decode evp input

/-- A sequence of calls on one object: the object afterwards and, per call, how it ended. -/
def AESClient.callEach {σ : Type} (evp : Evp σ) :
    AESClient σ → List AESCall → AESClient σ × List (AESCall × Outcome (List Byte))
  | self, [] => (self, [])
  | self, c :: cs =>
    let r := self.call evp c
    let rest := AESClient.callEach evp r.1 cs
    (rest.1, (c, r.2) :: rest.2)

/-- The total length of the outputs returned by `decode` in a log of calls. -/
def decodedLength : List (AESCall × Outcome (List Byte)) → Int
  | [] => 0
  | (.decode _, .returned out) :: log => out.length + decodedLength log
  | _ :: log => decodedLength log

/-- The total length of the inputs of the `decode` calls that returned. -/
def consumedLength : List (AESCall × Outcome (List Byte)) → Int
  | [] => 0
  | (.decode input, .returned _) :: log => input.length + consumedLength log
  | _ :: log => consumedLength log

/-! ## `SaslClient` (lines 199-357) -/

/-- The return code `GSASL_OK` of libgsasl (`gsasl.h`). -/
def GSASL_OK : Int := 0

/-- The return code `GSASL_NEEDS_MORE` of libgsasl (`gsasl.h`). -/
def GSASL_NEEDS_MORE : Int := 1

/-- The return code `GSASL_BASE64_ERROR` of libgsasl (`gsasl.h`). -/
def GSASL_BASE64_ERROR : Int := 8

/-- The session properties `SaslClient` sets. -/
inductive Gsasl_property
  | GSASL_AUTHID
  | GSASL_PASSWORD
  | GSASL_SERVICE
  | GSASL_HOSTNAME
  deriving DecidableEq, Repr

/-- A `Gsasl_session`: the state of the mechanism and the properties set on it. -/
structure Gsasl_session (μ : Type) where
  mech : μ
  property : Gsasl_property → Option (List Byte)

/-- The libgsasl calls `SaslClient` makes, over mechanism states of type `μ`. -/
structure Gsasl (μ : Type) where
  /-- The return code of `gsasl_init(&ctx)`. -/
  init : Int
  /-- `gsasl_client_start(ctx, mech, &session)`: the return code and the mechanism state
  of the new session. -/
  client_start : List Byte → Int × μ
  /-- `gsasl_step(session, input, input_len, &output, &output_len)`: the return code, the
  `output_len` bytes at `output`, and the session afterwards. -/
  step : Gsasl_session μ → List Byte → Int × List Byte × Gsasl_session μ
  /-- `gsasl_base64_to(in, inlen, &out, &outlen)`: the return code and, unless `out` is
  left `NULL`, the `outlen` bytes at `out`. -/
  base64_to : List Byte → Int × Option (List Byte)
  /-- `gsasl_base64_from(in, inlen, &out, &outlen)`, likewise. -/
  base64_from : List Byte → Int × Option (List Byte)

/-- The bytes a `const char *` denotes as a C string: those before the first NUL. -/
def c_str (s : List Byte) : List Byte := s.takeWhile (fun b => b ≠ 0)

/-- `gsasl_property_set(session, prop, data)`: stores the C string at `data`. -/
def gsasl_property_set {μ : Type} (session : Gsasl_session μ) (prop : Gsasl_property)
    (data : List Byte) : Gsasl_session μ :=
  { session with
    property := fun p => if p = prop then some (c_str data) else session.property p }

/-- `gsasl_property_set_raw(session, prop, data, len)`: stores `len` bytes at `data`. -/
def gsasl_property_set_raw {μ : Type} (session : Gsasl_session μ) (prop : Gsasl_property)
    (data : List Byte) (len : Nat) : Gsasl_session μ :=
  { session with
    property := fun p => if p = prop then some (data.take len) else session.property p }

/-- The fields of `RpcSaslProto_SaslAuth` read in `SaslClient.cpp`. -/
structure RpcSaslProto_SaslAuth where
  method : List Byte
  mechanism : List Byte
  protocol : List Byte
  serverid : List Byte

/-- The fields of `Token` read in `SaslClient.cpp`. -/
structure Token where
  identifier : List Byte
  password : List Byte

/-- The values of `AuthMethod` (`RpcAuth.h`). -/
inductive AuthMethod
  | SIMPLE
  | KERBEROS
  | TOKEN
  | UNKNOWN
  deriving DecidableEq, Repr

/-- The data members of `SaslClient` used by `evaluateChallenge` and `isComplete`. -/
structure SaslClient (μ : Type) where
  session : Gsasl_session μ
  complete : Bool

/-- `Base64Encode` (lines 254-276). `retval = temp` copies a C string, and the length
check rejects an output that copy shortened. -/
def Base64Encode {μ : Type} (gsasl : Gsasl μ) (input : List Byte) :
    Except HdfsException (List Byte) :=
  match gsasl.base64_to input with
  | (rc, temp) =>
    if rc ≠ GSASL_OK then
      if rc = GSASL_BASE64_ERROR then .error .HdfsIOException else .error .bad_alloc
    else
      match temp with
      | none => .error .HdfsIOException
      | some out =>
        let retval := c_str out
        if retval.length ≠ out.length then .error .HdfsIOException else .ok retval

/-- `Base64Decode` (lines 278-300). `retval.assign(temp, len)` copies `len` bytes. -/
def Base64Decode {μ : Type} (gsasl : Gsasl μ) (input : List Byte) :
    Except HdfsException (List Byte) :=
  match gsasl.base64_from input with
  | (rc, temp) =>
    if rc ≠ GSASL_OK then
      if rc = GSASL_BASE64_ERROR then .error .HdfsIOException else .error .bad_alloc
    else
      match temp with
      | none => .error .HdfsIOException
      | some out =>
        let retval := out.take out.length
        if retval.length ≠ out.length then .error .HdfsIOException else .ok retval

/-- `SaslClient::initKerberos` (lines 239-252): the configured session, or the exception. -/
def initKerberos {μ : Type} (gsasl : Gsasl μ) (auth : RpcSaslProto_SaslAuth)
    (principal : List Byte) : Except HdfsException (Gsasl_session μ) :=
  match gsasl.client_start (c_str auth.mechanism) with
  | (rc, mech) =>
    if rc ≠ GSASL_OK then .error .HdfsIOException
    else
      let session : Gsasl_session μ := { mech := mech, property := fun _ => none }
      let session := gsasl_property_set session .GSASL_SERVICE auth.protocol
      let session := gsasl_property_set session .GSASL_AUTHID principal
      let session := gsasl_property_set session .GSASL_HOSTNAME auth.serverid
      .ok session

/-- `SaslClient::initDigestMd5` (lines 302-321): the configured session, or the
exception. `encryptedData` is a member declared outside this file. -/
def initDigestMd5 {μ : Type} (gsasl : Gsasl μ) (encryptedData : Bool)
    (auth : RpcSaslProto_SaslAuth) (token : Token) : Except HdfsException (Gsasl_session μ) :=
  match gsasl.client_start (c_str auth.mechanism) with
  | (rc, mech) =>
    if rc ≠ GSASL_OK then .error .HdfsIOException
    else
      match Base64Encode gsasl token.password with
      | .error e => .error e
      | .ok password =>
        match (if !encryptedData then Base64Encode gsasl token.identifier
               else .ok token.identifier) with
        | .error e => .error e
        | .ok identifier =>
          let session : Gsasl_session μ := { mech := mech, property := fun _ => none }
          let session := gsasl_property_set session .GSASL_PASSWORD password
          let session :=
            gsasl_property_set_raw session .GSASL_AUTHID identifier identifier.length
          let session := gsasl_property_set session .GSASL_HOSTNAME auth.serverid
          let session := gsasl_property_set session .GSASL_SERVICE auth.protocol
          .ok session

/-- The constructor `SaslClient::SaslClient` (lines 199-224). `ParseMethod` is
`RpcAuth::ParseMethod`, defined outside this file. -/
def SaslClient.construct {μ : Type} (gsasl : Gsasl μ) (ParseMethod : List Byte → AuthMethod)
    (encryptedData : Bool) (auth : RpcSaslProto_SaslAuth) (token : Token)
    (principal : List Byte) : Except HdfsException (SaslClient μ) :=
  if gsasl.init ≠ GSASL_OK then .error .HdfsIOException
  else
    match ParseMethod auth.method with
    | .KERBEROS =>
      match initKerberos gsasl auth principal with
      | .error e => .error e
      | .ok session => .ok { session := session, complete := false }
    | .TOKEN =>
      match initDigestMd5 gsasl encryptedData auth token with
      | .error e => .error e
      | .ok session => .ok { session := session, complete := false }
    | _ => .error .HdfsIOException

/-- `SaslClient::evaluateChallenge` (lines 323-353): the object afterwards and how the
call ended. -/
def SaslClient.evaluateChallenge {μ : Type} (gsasl : Gsasl μ) (self : SaslClient μ)
    (challenge : List Byte) : SaslClient μ × Outcome (List Byte) :=
  match gsasl.step self.session challenge with
  | (rc, output, session) =>
    if rc = GSASL_NEEDS_MORE ∨ rc = GSASL_OK then
      let retval := output
      if rc = GSASL_OK then
        ({ session := session, complete := true }, .returned retval)
      else
        ({ session := session, complete := self.complete }, .returned retval)
    else
      ({ session := session, complete := self.complete }, .thrown .AccessControlException)

/-- `SaslClient::isComplete` (lines 355-357). -/
def SaslClient.isComplete {μ : Type} (self : SaslClient μ) : Bool := self.complete

/-- The status `gsasl_step` reports when `evaluateChallenge` is called on `self`. -/
def SaslClient.stepStatus {μ : Type} (gsasl : Gsasl μ) (self : SaslClient μ)
    (challenge : List Byte) : Int :=
  (gsasl.step self.session challenge).1

/-- The response bytes `gsasl_step` produces when `evaluateChallenge` is called on `self`. -/
def SaslClient.stepOutput {μ : Type} (gsasl : Gsasl μ) (self : SaslClient μ)
    (challenge : List Byte) : List Byte :=
  (gsasl.step self.session challenge).2.1

/-- Successive `evaluateChallenge` calls on one object: the object afterwards and, per
call, the status the mechanism reported and how the call ended. -/
def SaslClient.evaluateEach {μ : Type} (gsasl : Gsasl μ) :
    SaslClient μ → List (List Byte) → SaslClient μ × List (Int × Outcome (List Byte))
  | self, [] => (self, [])
  | self, c :: cs =>
    let r := self.evaluateChallenge gsasl c
    let rest := SaslClient.evaluateEach gsasl r.1 cs
    (rest.1, (self.stepStatus gsasl c, r.2) :: rest.2)

/-! ## Sample collaborators, for evaluating the definitions on concrete inputs -/

/-- A sample keystream: the byte at position `pos` is the sum of the key bytes plus the
sum of the IV bytes plus `pos`. -/
def sampleKeystream (key iv : List Byte) (pos : Nat) : Byte :=
  toUChar ((key.map Fin.val).sum + (iv.map Fin.val).sum + pos)

/-- A primitive that fails on a negative length and on every chunk whose first byte is
`0xff`, and copies every other chunk. -/
def sampleFailingEvp : Evp Unit where
  CipherInit _ _ _ _ := some ()
  CipherUpdate _ chunk inl :=
    if inl < 0 ∨ chunk.head? = some 255 then none else some ((), chunk)

/-- The Base64 alphabet. -/
def base64Alphabet : List Byte :=
  "ABCDEFGHIJKLMNOPQRSTUVWXYZabcdefghijklmnopqrstuvwxyz0123456789+/".toList.map
    (fun c => toUChar c.toNat)

/-- The Base64 character of a 6-bit value. -/
def base64Char (n : Nat) : Byte := base64Alphabet.getD (n % 64) 0

/-- Base64 encoding (RFC 4648) with padding. -/
def base64 : List Byte → List Byte
  | a :: b :: c :: rest =>
    base64Char (a.val / 4) :: base64Char (a.val % 4 * 16 + b.val / 16) ::
      base64Char (b.val % 16 * 4 + c.val / 64) :: base64Char (c.val % 64) :: base64 rest
  | [a, b] =>
    [base64Char (a.val / 4), base64Char (a.val % 4 * 16 + b.val / 16),
      base64Char (b.val % 16 * 4), toUChar 61]
  | [a] => [base64Char (a.val / 4), base64Char (a.val % 4 * 16), toUChar 61, toUChar 61]
  | [] => []

/-- A sample libgsasl: the mechanism state counts the steps taken; a step on a challenge
starting with `0xff` is rejected (`GSASL_AUTHENTICATION_ERROR`, 4), the first accepted
step needs more data, later ones succeed; the response echoes the challenge. -/
def sampleGsasl : Gsasl Nat where
  init := GSASL_OK
  client_start _ := (GSASL_OK, 0)
  step session challenge :=
    if challenge.head? = some 255 then (4, [], session)
    else if session.mech = 0 then (GSASL_NEEDS_MORE, challenge, { session with mech := 1 })
    else (GSASL_OK, challenge, { session with mech := session.mech + 1 })
  base64_to input := (GSASL_OK, some (base64 input))
  base64_from _ := (GSASL_BASE64_ERROR, none)

/-- The object `AESClient::AESClient` builds on the counter-mode primitive. -/
def ctrSession (enckey enciv deckey deciv : List Byte) (bufsize : Int) : AESClient CtrCtx :=
  { encrypt := ⟨selectCipher enckey, enckey, enciv, true, 0⟩,
    decrypt := ⟨selectCipher enckey, deckey, deciv, false, 0⟩,
    packetsSent := 0, decoffset := 0, bufsize := bufsize, enckey := enckey, enciv := enciv,
    deckey := deckey, deciv := deciv, initdeciv := deciv }

/-- A sample 16-byte key. -/
def sampleKey16 : List Byte := List.replicate 16 1

/-- Another sample 16-byte key. -/
def otherKey16 : List Byte := List.replicate 16 2

/-- A sample 16-byte IV. -/
def sampleIV : List Byte := List.replicate 16 0

/-- A sample mechanism descriptor: method `TOKEN`, mechanism `DIGEST-MD5`, protocol
`hdfs`, server id `nn`. -/
def sampleAuth : RpcSaslProto_SaslAuth :=
  { method := [84, 79, 75, 69, 78], mechanism := [68, 73, 71, 69, 83, 84, 45, 77, 68, 53],
    protocol := [104, 100, 102, 115], serverid := [110, 110] }

/-- A sample token; its identifier holds a NUL byte. -/
def sampleToken : Token := { identifier := [105, 0, 100], password := [77, 97, 110] }

/-- The session `initDigestMd5` configures from the samples, identifier passed through. -/
def sampleSessionRaw : Gsasl_session Nat :=
  match initDigestMd5 sampleGsasl true sampleAuth sampleToken with
  | .ok session => session
  | .error _ => { mech := 0, property := fun _ => none }

/-- The session `initDigestMd5` configures from the samples, identifier encoded. -/
def sampleSessionEncoded : Gsasl_session Nat :=
  match initDigestMd5 sampleGsasl false sampleAuth sampleToken with
  | .ok session => session
  | .error _ => { mech := 0, property := fun _ => none }

/-- The object the constructor builds from the samples. -/
def sampleClient : SaslClient Nat :=
  { session := sampleSessionEncoded, complete := false }

/-! ## Lemmas on `calculateIV` -/

theorem and_0xff_eq_mod (x : Nat) : x &&& 0xff = x % 256 := Nat.and_pow_two_sub_one_eq_mod x 8

theorem shiftRight_8_eq_div (x : Nat) : x >>> 8 = x / 256 := Nat.shiftRight_eq_div_pow x 8

theorem beValue_nil : beValue [] = 0 := rfl

theorem beValue_concat (s : List Byte) (b : Byte) :
    beValue (s ++ [b]) = beValue s * 256 + b.val := by
  simp [beValue, List.foldl_append]

/-- One iteration of the loop while counter bytes are still being added. -/
theorem calculateIVLoop_succ_lt (initIV : List Byte) (i j sum : Nat) (counter : Int)
    (IV : List Byte) (hj : j < 8) (hsum : sum < 2 ^ 32) :
    calculateIVLoop initIV (i + 1) j sum counter IV =
      calculateIVLoop initIV i (j + 1)
        ((initIV.getD i 0).val + sum / 256 + (counter % 256).toNat)
        (((counter % 2 ^ 32).toNat / 256 : Nat) : Int)
        (IV.set i (toUChar ((initIV.getD i 0).val + sum / 256 + (counter % 256).toNat))) := by
  have h1 : ((initIV.getD i 0).val &&& 0xff) = (initIV.getD i 0).val := by
    rw [and_0xff_eq_mod]; exact Nat.mod_eq_of_lt (initIV.getD i 0).isLt
  have h2 : (sum % 2 ^ 32) >>> 8 = sum / 256 := by
    rw [shiftRight_8_eq_div, Nat.mod_eq_of_lt hsum]
  have h3 : ((counter % 256).toNat &&& 0xff) = (counter % 256).toNat := by
    rw [and_0xff_eq_mod]; omega
  have h4 : ((counter % 2 ^ 64).toNat % 2 ^ 32) >>> 8 = (counter % 2 ^ 32).toNat / 256 := by
    rw [shiftRight_8_eq_div]; omega
  rw [calculateIVLoop]
  simp only [hj, if_true, h1, h2, h3, h4]

theorem calculateIVLoop_succ_ge (initIV : List Byte) (i j sum : Nat) (counter : Int)
    (IV : List Byte) (hj : ¬ j < 8) (hsum : sum < 2 ^ 32) :
    calculateIVLoop initIV (i + 1) j sum counter IV =
      calculateIVLoop initIV i (j + 1)
        ((initIV.getD i 0).val + sum / 256) counter
        (IV.set i (toUChar ((initIV.getD i 0).val + sum / 256))) := by
  have h1 : ((initIV.getD i 0).val &&& 0xff) = (initIV.getD i 0).val := by
    rw [and_0xff_eq_mod]; exact Nat.mod_eq_of_lt (initIV.getD i 0).isLt
  have h2 : (sum % 2 ^ 32) >>> 8 = sum / 256 := by
    rw [shiftRight_8_eq_div, Nat.mod_eq_of_lt hsum]
  rw [calculateIVLoop]
  simp only [hj, if_false, h1, h2]

theorem mod_mul_256 (Y t N : Nat) :
    (256 * Y + t) % (256 * N) = 256 * ((Y + t / 256) % N) + t % 256 := by
  rw [Nat.mod_mul, Nat.mul_add_mod, Nat.mul_add_div (by decide)]
  omega

theorem calculateIVLoop_ignores_counter (initIV : List Byte) :
    ∀ (i j sum : Nat) (c1 c2 : Int) (IV : List Byte), 8 ≤ j → sum < 2 ^ 32 →
      calculateIVLoop initIV i j sum c1 IV = calculateIVLoop initIV i j sum c2 IV := by
  intro i
  induction i with
  | zero => intro j sum c1 c2 IV _ _; rfl
  | succ i ih =>
    intro j sum c1 c2 IV hj hsum
    have hb := (initIV.getD i 0).isLt
    rw [calculateIVLoop_succ_ge _ _ _ _ _ _ (by omega) hsum,
      calculateIVLoop_succ_ge _ _ _ _ _ _ (by omega) hsum]
    exact ih _ _ _ _ _ (by omega) (by omega)

theorem calculateIVLoop_counter_mod (initIV : List Byte) (i j sum : Nat) (counter : Int)
    (IV : List Byte) (hsum : sum < 2 ^ 32) :
    calculateIVLoop initIV i j sum counter IV =
      calculateIVLoop initIV i j sum (((counter % 2 ^ 32).toNat : Nat) : Int) IV := by
  cases i with
  | zero => rfl
  | succ i =>
    by_cases hj : j < 8
    · rw [calculateIVLoop_succ_lt _ _ _ _ _ _ hj hsum, calculateIVLoop_succ_lt _ _ _ _ _ _ hj hsum]
      have e1 : ((((counter % 2 ^ 32).toNat : Nat) : Int) % 256).toNat = (counter % 256).toNat := by
        omega
      have e2 : ((((counter % 2 ^ 32).toNat : Nat) : Int) % 2 ^ 32).toNat
          = (counter % 2 ^ 32).toNat := by omega
      rw [e1, e2]
    · rw [calculateIVLoop_succ_ge _ _ _ _ _ _ hj hsum, calculateIVLoop_succ_ge _ _ _ _ _ _ hj hsum]
      have hb := (initIV.getD i 0).isLt
      exact calculateIVLoop_ignores_counter _ _ _ _ _ _ _ (by omega) (by omega)

theorem calculateIVLoop_spec (initIV : List Byte) :
    ∀ (i j sum c : Nat) (IV : List Byte), i ≤ initIV.length → IV.length = initIV.length →
      sum < 2 ^ 32 → c < 2 ^ 32 →
      (calculateIVLoop initIV i j sum (c : Int) IV).length = initIV.length ∧
      (calculateIVLoop initIV i j sum (c : Int) IV).drop i = IV.drop i ∧
      beValue ((calculateIVLoop initIV i j sum (c : Int) IV).take i) =
        (beValue (initIV.take i) + sum / 256 + c % 256 ^ (min i (8 - j))) % 256 ^ i := by
  intro i
  induction i with
  | zero =>
    intro j sum c IV _ hlen _ _
    simp [calculateIVLoop, hlen, beValue_nil, Nat.mod_one]
  | succ i ih =>
    intro j sum c IV hi hlen hsum hc
    have hb := (initIV.getD i 0).isLt
    have hget : initIV[i]? = some (initIV.getD i 0) := by
      rw [List.getD_eq_getElem?_getD, List.getElem?_eq_getElem (by omega)]; rfl
    have hiv : beValue (initIV.take (i + 1)) = beValue (initIV.take i) * 256 + (initIV.getD i 0).val := by
      rw [List.take_succ, hget]; exact beValue_concat _ _
    by_cases hj : j < 8
    · rw [calculateIVLoop_succ_lt _ _ _ _ _ _ hj hsum]
      have ec : (((((c : Int) % 2 ^ 32).toNat / 256 : Nat)) : Int) = ((c / 256 : Nat) : Int) := by
        congr 1; omega
      have e256 : ((c : Int) % 256).toNat = c % 256 := by omega
      rw [ec, e256]
      set t := (initIV.getD i 0).val + sum / 256 + c % 256 with ht
      obtain ⟨h1, h2, h3⟩ := ih (j + 1) t (c / 256) (IV.set i (toUChar t)) (by omega)
        (by simpa using hlen) (by omega) (by omega)
      set R := calculateIVLoop initIV i (j + 1) t ((c / 256 : Nat) : Int) (IV.set i (toUChar t))
      have hRi : R[i]? = some (toUChar t) := by
        have := congrArg List.head? h2
        simpa [List.head?_drop, List.getElem?_set, hlen, Nat.lt_of_succ_le hi] using this
      refine ⟨h1, ?_, ?_⟩
      · have := congrArg (List.drop 1) h2
        simpa [List.drop_drop, Nat.add_comm, List.drop_set_of_lt] using this
      · rw [List.take_succ, hRi, Option.toList_some, beValue_concat, h3, hiv]
        have hmin : min (i + 1) (8 - j) = min i (8 - (j + 1)) + 1 := by omega
        have hcm : c % 256 ^ (min i (8 - (j + 1)) + 1)
            = c % 256 + 256 * (c / 256 % 256 ^ min i (8 - (j + 1))) := by
          rw [pow_succ, Nat.mul_comm, Nat.mod_mul]
        have hN : 256 ^ (i + 1) = 256 * 256 ^ i := by rw [pow_succ, Nat.mul_comm]
        rw [hmin, hcm, hN]
        generalize c / 256 % 256 ^ min i (8 - (j + 1)) = m
        generalize beValue (initIV.take i) = A
        have e1 : A * 256 + (initIV.getD i 0).val + sum / 256 + (c % 256 + 256 * m)
            = 256 * (A + m) + t := by omega
        have e2 : A + m + t / 256 = A + t / 256 + m := by omega
        rw [e1, mod_mul_256, e2]
        simp only [toUChar]
        omega
    · rw [calculateIVLoop_succ_ge _ _ _ _ _ _ hj hsum]
      set t := (initIV.getD i 0).val + sum / 256 with ht
      obtain ⟨h1, h2, h3⟩ := ih (j + 1) t c (IV.set i (toUChar t)) (by omega)
        (by simpa using hlen) (by omega) hc
      set R := calculateIVLoop initIV i (j + 1) t (c : Int) (IV.set i (toUChar t))
      have hRi : R[i]? = some (toUChar t) := by
        have := congrArg List.head? h2
        simpa [List.head?_drop, List.getElem?_set, hlen, Nat.lt_of_succ_le hi] using this
      refine ⟨h1, ?_, ?_⟩
      · have := congrArg (List.drop 1) h2
        simpa [List.drop_drop, Nat.add_comm, List.drop_set_of_lt] using this
      · rw [List.take_succ, hRi, Option.toList_some, beValue_concat, h3, hiv]
        have hmin : min (i + 1) (8 - j) = 0 := by omega
        have hmin2 : min i (8 - (j + 1)) = 0 := by omega
        have hN : 256 ^ (i + 1) = 256 * 256 ^ i := by rw [pow_succ, Nat.mul_comm]
        rw [hmin, hmin2, hN]
        simp only [pow_zero, Nat.mod_one, Nat.add_zero]
        generalize beValue (initIV.take i) = A
        have e1 : A * 256 + (initIV.getD i 0).val + sum / 256 = 256 * A + t := by omega
        rw [e1, mod_mul_256]
        simp only [toUChar]
        omega

theorem toUChar_val (b : Byte) : toUChar b.val = b := by
  apply Fin.ext
  simp only [toUChar]
  exact Nat.mod_eq_of_lt b.isLt

theorem calculateIVLoop_zero (initIV : List Byte) :
    ∀ (i j sum : Nat) (IV : List Byte), i ≤ initIV.length → IV.length = initIV.length →
      sum < 256 →
      calculateIVLoop initIV i j sum 0 IV = initIV.take i ++ IV.drop i := by
  intro i
  induction i with
  | zero => intro j sum IV _ _ _; simp [calculateIVLoop]
  | succ i ih =>
    intro j sum IV hi hlen hsum
    have hb := (initIV.getD i 0).isLt
    have hget : initIV[i]? = some (initIV.getD i 0) := by
      rw [List.getD_eq_getElem?_getD, List.getElem?_eq_getElem (by omega)]; rfl
    have hs0 : sum / 256 = 0 := by omega
    have hset : (IV.set i (initIV.getD i 0)).drop i = initIV.getD i 0 :: IV.drop (i + 1) := by
      rw [List.set_eq_take_append_cons_drop, if_pos (by omega)]
      rw [List.drop_left' (by simp; omega)]
    by_cases hj : j < 8
    · rw [calculateIVLoop_succ_lt _ _ _ _ _ _ hj (by omega)]
      simp only [hs0, Nat.add_zero, Int.zero_emod, Int.toNat_zero, Nat.zero_div, toUChar_val,
        Nat.cast_zero]
      rw [ih _ _ _ (by omega) (by simpa using hlen) hb, hset, List.take_succ, hget]
      simp
    · rw [calculateIVLoop_succ_ge _ _ _ _ _ _ hj (by omega)]
      simp only [hs0, Nat.add_zero, toUChar_val]
      rw [ih _ _ _ (by omega) (by simpa using hlen) hb, hset, List.take_succ, hget]
      simp

theorem toInt32_of_lt (n : Nat) (h : n < 2 ^ 31) : toInt32 n = (n : Int) := by
  unfold toInt32
  omega

theorem toInt32_toNat_le (n : Nat) : (toInt32 n).toNat ≤ n := by
  unfold toInt32
  omega

theorem calculateIV_length (initIV : List Byte) (counter : Int) :
    (calculateIV initIV counter).length = initIV.length := by
  unfold calculateIV
  rw [calculateIVLoop_counter_mod _ _ _ _ _ _ (by decide)]
  exact (calculateIVLoop_spec initIV _ 0 0 _ _ (toInt32_toNat_le _) (by simp) (by decide)
    (by omega)).1

theorem calculateIV_beValue (initIV : List Byte) (counter : Int)
    (hlen : initIV.length < 2 ^ 31) :
    beValue (calculateIV initIV counter)
      = (beValue initIV + (counter % 2 ^ 32).toNat) % 2 ^ (8 * initIV.length) := by
  have hlen' := calculateIV_length initIV counter
  unfold calculateIV at hlen' ⊢
  rw [toInt32_of_lt _ hlen, Int.toNat_ofNat] at hlen' ⊢
  rw [calculateIVLoop_counter_mod _ _ _ _ _ _ (by decide)] at hlen' ⊢
  have hc : (counter % 2 ^ 32).toNat < 2 ^ 32 := by omega
  obtain ⟨_, _, h3⟩ := calculateIVLoop_spec initIV initIV.length 0 0 (counter % 2 ^ 32).toNat
    (List.replicate initIV.length 0) (Nat.le_refl _) (by simp) (by decide) hc
  rw [List.take_of_length_le (by omega), List.take_of_length_le (Nat.le_refl _)] at h3
  rw [h3, pow_mul]
  generalize (counter % 2 ^ 32).toNat = c at hc ⊢
  generalize initIV.length = n
  simp only [Nat.zero_div, Nat.add_zero, Nat.sub_zero]
  norm_num
  by_cases hn : n ≤ 8
  · rw [Nat.min_eq_left hn, Nat.add_mod_mod]
  · rw [Nat.min_eq_right (by omega)]
    rw [Nat.mod_eq_of_lt (a := c) (by omega)]

/-! ## Claims on `calculateIV` -/

/-- Evaluation for claim C1 at the all-zero 16-byte IV and counter `2 ^ 32`: the code
returns the IV unchanged (value 0), while adding the counter as an unsigned 64-bit value
gives `2 ^ 32`. The bits of the counter above the low 32 are lost in `unsigned c`. -/
theorem calculateIV_drops_counter_bits_above_32 :
    calculateIV (List.replicate 16 0) (2 ^ 32) = List.replicate 16 0 ∧
    beValue (calculateIV (List.replicate 16 0) (2 ^ 32)) = 0 ∧
    (beValue (List.replicate 16 0) + ((2 ^ 32 : Int) % 2 ^ 64).toNat) % 2 ^ 128 = 2 ^ 32 := by
  have h : calculateIV (List.replicate 16 0) (2 ^ 32) = List.replicate 16 0 := by
    have h16 : (toInt32 (List.replicate 16 (0 : Byte)).length).toNat = 16 := by decide
    rw [calculateIV, h16]
    simp [calculateIVLoop, toUChar]
  refine ⟨h, ?_, ?_⟩
  · rw [h]; simp [beValue]
  · simp [beValue]

set_option maxRecDepth 100000 in
/-- Claim C4: with the all-zero 16-byte IV and counter 1 the result is fifteen `0x00`
bytes followed by `0x01`; with the all-`0xFF` 16-byte IV and counter 1 the result is
sixteen `0x00` bytes. -/
theorem calculateIV_carry_vectors :
    calculateIV (List.replicate 16 0) 1 = List.replicate 15 0 ++ [1] ∧
    calculateIV (List.replicate 16 255) 1 = List.replicate 16 0 := by
  decide

/-- Claim C10 as stated fails for an IV of `2 ^ 31` bytes: `int i = initIV.length()` is
negative, the loop does not run, and `calculateIV(iv, 0)` is `2 ^ 31` zero bytes, not
the IV. -/
theorem calculateIV_long_iv_not_returned :
    calculateIV (List.replicate 2147483648 1) 0 = List.replicate 2147483648 0 ∧
    calculateIV (List.replicate 2147483648 1) 0 ≠ List.replicate 2147483648 1 := by
  have hneg : (toInt32 2147483648).toNat = 0 := by decide
  have h : calculateIV (List.replicate 2147483648 1) 0 = List.replicate 2147483648 0 := by
    rw [calculateIV, List.length_replicate, hneg, calculateIVLoop]
  refine ⟨h, ?_⟩
  rw [h]
  intro hc
  have := (List.replicate_inj.mp hc).2
  revert this
  decide

/-- Claim C10, amended: for an IV of any length `n` below `2 ^ 31` and any counter,
`calculateIV` returns `n` bytes whose big-endian value is
`(initIV + counter mod 2 ^ 32) mod 2 ^ (8 n)`; the result is the same for `counter` and
for `counter mod 2 ^ 32`, and counter 0 returns the IV. -/
theorem calculateIV_adds_low_32_bits (initIV : List Byte) (counter : Int)
    (hlen : initIV.length < 2 ^ 31) :
    (calculateIV initIV counter).length = initIV.length ∧
    beValue (calculateIV initIV counter)
      = (beValue initIV + (counter % 2 ^ 32).toNat) % 2 ^ (8 * initIV.length) ∧
    calculateIV initIV counter = calculateIV initIV (counter % 2 ^ 32) ∧
    calculateIV initIV 0 = initIV := by
  refine ⟨calculateIV_length initIV counter, calculateIV_beValue initIV counter hlen, ?_, ?_⟩
  · unfold calculateIV
    rw [calculateIVLoop_counter_mod _ _ _ _ counter _ (by decide),
      calculateIVLoop_counter_mod _ _ _ _ (counter % 2 ^ 32) _ (by decide)]
    have : ((counter % 2 ^ 32) % 2 ^ 32).toNat = (counter % 2 ^ 32).toNat := by omega
    rw [this]
  · unfold calculateIV
    rw [toInt32_of_lt _ hlen, Int.toNat_ofNat,
      calculateIVLoop_zero _ _ _ _ _ (Nat.le_refl _) (by simp) (by decide)]
    simp

/-- Claim C10, amended, at a 3-byte IV and counter `-1`: the low 32 bits of the counter
are all ones, and `0x010203 + 0xffffffff` is `0x010202` modulo `2 ^ 24`. -/
theorem calculateIV_adds_low_32_bits_witness :
    ([1, 2, 3] : List Byte).length < 2 ^ 31 ∧
    beValue (calculateIV [1, 2, 3] (-1))
      = (beValue [1, 2, 3] + ((-1 : Int) % 2 ^ 32).toNat) % 2 ^ (8 * [1, 2, 3].length) ∧
    calculateIV [1, 2, 3] 0 = [1, 2, 3] :=
  ⟨by decide, (calculateIV_adds_low_32_bits [1, 2, 3] (-1) (by decide)).2.1,
    (calculateIV_adds_low_32_bits [1, 2, 3] (-1) (by decide)).2.2.2⟩

/-! ## Lemmas on the chunking loop -/

theorem bytesAt_natCast (input : List Byte) (o k : Nat) :
    bytesAt input (o : Int) (k : Int) = (input.drop o).take k := by
  simp [bytesAt]

theorem writeAt_length (buf : List Byte) (offset : Int) (out : List Byte) :
    (writeAt buf offset out).length = buf.length := by
  simp only [writeAt, List.length_take, List.length_append, List.length_drop]
  omega

theorem whileRemaining_inv {σ : Type}
    (update : σ → List Byte → Int → Option (σ × List Byte))
    (input : List Byte) (b : Nat) (Inv : σ → List Byte → Nat → Prop) (hb : 1 ≤ b)
    (hstep : ∀ ctx result o k, Inv ctx result o → 1 ≤ k → o + k ≤ input.length →
      ∃ ctx' out, update ctx ((input.drop o).take k) (k : Int) = some (ctx', out) ∧
        out.length = k ∧ Inv ctx' (writeAt result (o : Int) out) (o + k)) :
    ∀ (fuel o r : Nat) (ctx : σ) (result : List Byte) (calls : List (List Byte × Int)),
      o + r = input.length → r ≤ fuel → Inv ctx result o →
      ∃ (ctx' : σ) (result' : List Byte) (o' r' : Nat) (new : List (List Byte × Int)),
        whileRemaining update (b : Int) input fuel ctx result (o : Int) (r : Int) calls
          = .done ctx' result' (o' : Int) (r' : Int) (calls ++ new) ∧
        Inv ctx' result' o' ∧ o ≤ o' ∧ o' + r' = input.length ∧ r' ≤ b ∧ (0 < r → 0 < r') ∧
        (∀ c ∈ new, c.1.length = b ∧ c.2 = (b : Int)) ∧
        (new.map Prod.fst).flatten = (input.drop o).take (o' - o) := by
  intro fuel
  induction fuel with
  | zero =>
    intro o r ctx result calls hor hfuel hinv
    have hr : r = 0 := by omega
    subst hr
    refine ⟨ctx, result, o, 0, [], ?_, hinv, Nat.le_refl _, hor, Nat.zero_le _, fun h => h, ?_, ?_⟩
    · rw [whileRemaining, if_neg (by omega)]; simp
    · simp
    · simp
  | succ f ih =>
    intro o r ctx result calls hor hfuel hinv
    by_cases h : (r : Int) > (b : Int)
    · have hrb : b < r := by omega
      obtain ⟨ctx1, out, hupd, hlen, hinv1⟩ := hstep ctx result o b hinv hb (by omega)
      obtain ⟨ctx', result', o', r', new, hrun, hI, hoo, hsum, hrb', hpos, hall, hflat⟩ :=
        ih (o + b) (r - b) ctx1 (writeAt result (o : Int) out)
          (calls ++ [((input.drop o).take b, (b : Int))]) (by omega) (by omega) hinv1
      refine ⟨ctx', result', o', r', ((input.drop o).take b, (b : Int)) :: new, ?_, hI,
        by omega, hsum, hrb', fun _ => hpos (by omega), ?_, ?_⟩
      · rw [whileRemaining, if_pos h]
        simp only [bytesAt_natCast, hupd, hlen]
        have e1 : (o : Int) + (b : Int) = ((o + b : Nat) : Int) := by push_cast; rfl
        have e2 : (r : Int) - (b : Int) = ((r - b : Nat) : Int) := by omega
        rw [e1, e2, hrun]
        simp
      · intro c hc
        rcases List.mem_cons.mp hc with rfl | hc
        · refine ⟨?_, rfl⟩
          simp only [List.length_take, List.length_drop]
          omega
        · exact hall c hc
      · rw [List.map_cons, List.flatten_cons, hflat]
        have : o' - o = b + (o' - (o + b)) := by omega
        rw [this, List.take_add, List.drop_drop]
    · refine ⟨ctx, result, o, r, [], ?_, hinv, Nat.le_refl _, hor, by omega, fun h => h, ?_, ?_⟩
      · rw [whileRemaining, if_neg h]; simp
      · simp
      · simp

theorem flatten_length_of_all {α : Type} (b : Nat) :
    ∀ (L : List (List α)), (∀ c ∈ L, c.length = b) → L.flatten.length = L.length * b
  | [], _ => by simp
  | c :: L, h => by
    have hc : c.length = b := h c (List.mem_cons_self _ _)
    have hL := flatten_length_of_all b L (fun d hd => h d (List.mem_cons_of_mem _ hd))
    simp only [List.flatten_cons, List.length_append, List.length_cons, hc, hL, Nat.succ_mul]
    omega

theorem ceil_div_chunks (m b r : Nat) (h1 : 1 ≤ r) (h2 : r ≤ b) :
    (m * b + r + b - 1) / b = m + 1 := by
  apply Nat.div_eq_of_lt_le
  · rw [Nat.succ_mul]; omega
  · rw [Nat.succ_mul, Nat.succ_mul]; omega

theorem cipherRun_inv {σ : Type} (update : σ → List Byte → Int → Option (σ × List Byte))
    (input : List Byte) (b : Nat) (Inv : σ → List Byte → Nat → Prop) (hb : 1 ≤ b)
    (hlen : input.length < 2 ^ 31)
    (hstep : ∀ ctx result o k, Inv ctx result o → 1 ≤ k → o + k ≤ input.length →
      ∃ ctx' out, update ctx ((input.drop o).take k) (k : Int) = some (ctx', out) ∧
        out.length = k ∧ Inv ctx' (writeAt result (o : Int) out) (o + k))
    (ctx0 : σ) (hinv0 : Inv ctx0 (List.replicate input.length 0) 0) :
    ∃ (ctx' : σ) (result' : List Byte) (calls : List (List Byte × Int)),
      cipherRun update (b : Int) ctx0 input = ⟨ctx', .returned result', calls⟩ ∧
      Inv ctx' result' input.length ∧ (calls.map Prod.fst).flatten = input ∧
      (∀ c ∈ calls, 1 ≤ c.1.length ∧ c.1.length ≤ b ∧ c.2 = (c.1.length : Int)) ∧
      (∀ c ∈ calls.dropLast, c.1.length = b) ∧
      calls.length = (input.length + b - 1) / b := by
  obtain ⟨ctx1, result1, o1, r1, new, hrun, hI, _, hsum, hrb, hpos, hall, hflat⟩ :=
    whileRemaining_inv update input b Inv hb hstep input.length 0 input.length ctx0
      (List.replicate input.length 0) [] (by omega) (Nat.le_refl _) hinv0
  have hnew : new.length * b = o1 := by
    have := flatten_length_of_all b (new.map Prod.fst) (by
      intro c hc
      obtain ⟨d, hd, rfl⟩ := List.mem_map.mp hc
      exact (hall d hd).1)
    rw [hflat] at this
    simp only [List.drop_zero, List.length_take, Nat.sub_zero, List.length_map] at this
    omega
  simp only [List.nil_append, List.drop_zero, Nat.sub_zero, Nat.cast_zero] at hrun hflat
  by_cases hr : r1 = 0
  · subst hr
    have hn : input.length = 0 := by omega
    have ho : o1 = 0 := by omega
    have hnl : new = [] := by
      rcases Nat.mul_eq_zero.mp (hnew.trans ho) with h | h
      · exact List.length_eq_zero.mp h
      · omega
    refine ⟨ctx1, result1, new, ?_, ?_, ?_, ?_, ?_, ?_⟩
    · simp only [cipherRun, toInt32_of_lt _ hlen, Nat.cast_zero] at hrun ⊢
      rw [hrun]; simp
    · have : input.length = o1 := by omega
      rw [this]; exact hI
    · rw [hflat, List.take_of_length_le (by omega)]
    · intro c hc
      obtain ⟨h1, h2⟩ := hall c hc
      rw [h1]; exact ⟨hb, Nat.le_refl _, h2⟩
    · intro c hc; exact (hall c (List.mem_of_mem_dropLast hc)).1
    · rw [hnl, hn]
      simp only [List.length_nil, Nat.zero_add]
      exact (Nat.div_eq_of_lt (by omega)).symm
  · obtain ⟨ctx2, out, hupd, hlen2, hI2⟩ := hstep ctx1 result1 o1 r1 hI (by omega) (by omega)
    refine ⟨ctx2, writeAt result1 (o1 : Int) out,
      new ++ [((input.drop o1).take r1, (r1 : Int))], ?_, ?_, ?_, ?_, ?_, ?_⟩
    · simp only [cipherRun, toInt32_of_lt _ hlen] at hrun ⊢
      rw [hrun]
      have : ¬ ((r1 : Int) = 0) := by omega
      simp only [ne_eq, this, not_false_eq_true, if_true, bytesAt_natCast, hupd]
    · rw [← hsum]; exact hI2
    · rw [List.map_append, List.flatten_append, hflat]
      simp only [List.map_cons, List.map_nil, List.flatten_cons, List.flatten_nil,
        List.append_nil]
      rw [← List.take_add, List.take_of_length_le (by omega)]
    · intro c hc
      rcases List.mem_append.mp hc with hc | hc
      · obtain ⟨h1, h2⟩ := hall c hc
        rw [h1]; exact ⟨hb, Nat.le_refl _, h2⟩
      · rw [List.mem_singleton.mp hc]
        simp only [List.length_take, List.length_drop]
        refine ⟨by omega, by omega, ?_⟩
        congr 1
        omega
    · intro c hc
      rw [List.dropLast_concat] at hc
      exact (hall c hc).1
    · rw [List.length_append, List.length_singleton, ← hsum, ← hnew]
      exact (ceil_div_chunks new.length b r1 (by omega) hrb).symm

/-! ## Lemmas on the counter-mode primitive -/

theorem byte_xor_cancel (a k : Byte) : (a ^^^ k) ^^^ k = a := by
  apply Fin.ext
  have ha : a.val < 2 ^ 8 := a.isLt
  have hk : k.val < 2 ^ 8 := k.isLt
  have h1 : (a ^^^ k).val = a.val ^^^ k.val := by
    show (a.val ^^^ k.val) % 256 = a.val ^^^ k.val
    exact Nat.mod_eq_of_lt (Nat.xor_lt_two_pow ha hk)
  show ((a ^^^ k).val ^^^ k.val) % 256 = a.val
  rw [h1, Nat.xor_assoc, Nat.xor_self, Nat.xor_zero]
  exact Nat.mod_eq_of_lt a.isLt

theorem ctrXor_length (stream : Nat → Byte) :
    ∀ (x : List Byte) (p : Nat), (ctrXor stream p x).length = x.length
  | [], _ => rfl
  | _ :: bs, p => by simp [ctrXor, ctrXor_length stream bs (p + 1)]

theorem ctrXor_append (stream : Nat → Byte) :
    ∀ (x y : List Byte) (p : Nat),
      ctrXor stream p (x ++ y) = ctrXor stream p x ++ ctrXor stream (p + x.length) y
  | [], y, p => by simp [ctrXor]
  | b :: bs, y, p => by
    have e : p + 1 + bs.length = p + (bs.length + 1) := by omega
    have ih := ctrXor_append stream bs y (p + 1)
    rw [e] at ih
    show (b ^^^ stream p) :: ctrXor stream (p + 1) (bs ++ y) = _
    rw [ih]
    rfl

theorem ctrXor_cancel (stream : Nat → Byte) :
    ∀ (x : List Byte) (p : Nat), ctrXor stream p (ctrXor stream p x) = x
  | [], _ => rfl
  | b :: bs, p => by simp [ctrXor, byte_xor_cancel, ctrXor_cancel stream bs (p + 1)]

theorem ctrXor_take (stream : Nat → Byte) :
    ∀ (x : List Byte) (p k : Nat), (ctrXor stream p x).take k = ctrXor stream p (x.take k)
  | [], _, _ => by simp [ctrXor]
  | _ :: _, _, 0 => by simp [ctrXor]
  | b :: bs, p, k + 1 => by simp [ctrXor, ctrXor_take stream bs (p + 1) k]

theorem ctrXor_drop (stream : Nat → Byte) :
    ∀ (x : List Byte) (p o : Nat), (ctrXor stream p x).drop o = ctrXor stream (p + o) (x.drop o)
  | [], _, _ => by simp [ctrXor]
  | _ :: _, _, 0 => by simp
  | b :: bs, p, o + 1 => by
    simp only [ctrXor, List.drop_succ_cons, ctrXor_drop stream bs (p + 1) o]
    congr 1
    omega

/-- Writing the next `k` bytes of the expected output `X` after the first `o`. -/
theorem writeAt_prefix (X : List Byte) (o k : Nat) (h : o + k ≤ X.length) :
    writeAt (X.take o ++ List.replicate (X.length - o) 0) (o : Int) ((X.drop o).take k)
      = X.take (o + k) ++ List.replicate (X.length - (o + k)) 0 := by
  have hlen : ((X.drop o).take k).length = k := by
    simp only [List.length_take, List.length_drop]; omega
  have htake : (X.take o).length = o := by
    simp only [List.length_take]; omega
  simp only [writeAt, Int.toNat_ofNat, hlen]
  rw [List.take_left' htake]
  rw [show o + k = (X.take o).length + k by rw [htake], List.drop_append, htake]
  rw [List.drop_replicate, ← List.take_add, Nat.sub_sub]
  apply List.take_of_length_le
  simp only [List.length_append, List.length_take, List.length_replicate]
  omega

/-- On the counter-mode primitive the body of `encode`/`decode`, given fewer than `2 ^ 31`
bytes, returns the XOR of its input with the keystream from the current position and
advances the position by the input length, whatever the chunk limit (at least 1). -/
theorem cipherRun_ctr (keystream : List Byte → List Byte → Nat → Byte)
    (b : Nat) (hb : 1 ≤ b) (ctx0 : CtrCtx) (input : List Byte)
    (hlen : input.length < 2 ^ 31) :
    (cipherRun (ctrEvp keystream).CipherUpdate (b : Int) ctx0 input).ctx
        = { ctx0 with pos := ctx0.pos + input.length } ∧
    (cipherRun (ctrEvp keystream).CipherUpdate (b : Int) ctx0 input).outcome
        = .returned (ctrXor (keystream ctx0.key ctx0.iv) ctx0.pos input) := by
  set stream := keystream ctx0.key ctx0.iv with hstream
  set X := ctrXor stream ctx0.pos input with hX
  have hXlen : X.length = input.length := ctrXor_length _ _ _
  obtain ⟨ctx', result', calls, hrun, ⟨hctx, hres⟩, _⟩ :=
    cipherRun_inv (ctrEvp keystream).CipherUpdate input b
      (fun ctx result o => ctx = { ctx0 with pos := ctx0.pos + o } ∧
        result = X.take o ++ List.replicate (X.length - o) 0) hb hlen
      (by
        rintro ctx result o k ⟨rfl, rfl⟩ hk hok
        refine ⟨{ ctx0 with pos := ctx0.pos + (o + k) }, (X.drop o).take k, ?_, ?_, rfl, ?_⟩
        · have hl : ((input.drop o).take k).length = k := by
            simp only [List.length_take, List.length_drop]; omega
          have hneg : ¬ ((k : Int) < 0) := by omega
          simp only [ctrEvp, hneg, if_false, hl, hX, ctrXor_drop, ctrXor_take, Nat.add_assoc]
        · simp only [List.length_take, List.length_drop]; omega
        · exact writeAt_prefix X o k (by omega))
      ctx0 (by simp [hXlen])
  rw [hrun]
  refine ⟨hctx, ?_⟩
  simp only [hres, ← hXlen, Nat.sub_self, List.replicate_zero, List.append_nil]
  rw [List.take_of_length_le (Nat.le_refl _)]

/-- A buffer of exactly `2 ^ 31` bytes: `int remaining = input_len` is `-2 ^ 31`, the loop
is skipped, and the one call of the primitive gets no bytes and the negative length. -/
theorem cipherRun_two_pow_31 {σ : Type}
    (update : σ → List Byte → Int → Option (σ × List Byte)) (bufsize : Int)
    (hbuf : 1 ≤ bufsize) (ctx : σ) (input : List Byte) (hlen : input.length = 2147483648)
    (hfail : update ctx [] (-2147483648) = none) :
    cipherRun update bufsize ctx input
      = ⟨ctx, .thrown .HdfsIOException, [([], -2147483648)]⟩ := by
  have hneg : toInt32 2147483648 = -2147483648 := by decide
  have hnat : (-2147483648 : Int).toNat = 0 := by decide
  have hgt : ¬ ((-2147483648 : Int) > bufsize) := by omega
  unfold cipherRun
  rw [hlen, hneg, whileRemaining, if_neg hgt]
  simp only [bytesAt, hnat, List.take_zero, hfail]
  simp

/-! ## Claims on `AESClient` -/

theorem construct_ctr (keystream : List Byte → List Byte → Nat → Byte)
    (enckey enciv deckey deciv : List Byte) (bufsize : Int) (s : AESClient CtrCtx)
    (h : AESClient.construct (ctrEvp keystream) enckey enciv deckey deciv bufsize = .ok s) :
    s.encrypt = ⟨selectCipher enckey, enckey, enciv, true, 0⟩ ∧
    s.decrypt = ⟨selectCipher enckey, deckey, deciv, false, 0⟩ ∧
    s.bufsize = bufsize ∧ s.decoffset = 0 := by
  simp only [AESClient.construct, ctrEvp] at h
  cases h
  exact ⟨rfl, rfl, rfl, rfl⟩

theorem encode_ctr (keystream : List Byte → List Byte → Nat → Byte)
    (s : AESClient CtrCtx) (hbuf : 1 ≤ s.bufsize) (input : List Byte)
    (hlen : input.length < 2 ^ 31) :
    s.encode (ctrEvp keystream) input =
      ({ s with encrypt := { s.encrypt with pos := s.encrypt.pos + input.length } },
        .returned (ctrXor (keystream s.encrypt.key s.encrypt.iv) s.encrypt.pos input)) := by
  obtain ⟨b, hb⟩ := Int.eq_ofNat_of_zero_le (by omega : 0 ≤ s.bufsize)
  have h := cipherRun_ctr keystream b (by omega) s.encrypt input hlen
  simp only [AESClient.encode, AESClient.encodeRun, hb, h.1, h.2]

theorem decode_ctr (keystream : List Byte → List Byte → Nat → Byte)
    (s : AESClient CtrCtx) (hbuf : 1 ≤ s.bufsize) (input : List Byte)
    (hlen : input.length < 2 ^ 31) :
    s.decode (ctrEvp keystream) input =
      ({ s with decrypt := { s.decrypt with pos := s.decrypt.pos + input.length },
                decoffset := s.decoffset + input.length },
        .returned (ctrXor (keystream s.decrypt.key s.decrypt.iv) s.decrypt.pos input)) := by
  obtain ⟨b, hb⟩ := Int.eq_ofNat_of_zero_le (by omega : 0 ≤ s.bufsize)
  have h := cipherRun_ctr keystream b (by omega) s.decrypt input hlen
  simp only [AESClient.decode, AESClient.decodeRun, hb, h.1, h.2]

theorem encodeEach_ctr (keystream : List Byte → List Byte → Nat → Byte) :
    ∀ (parts : List (List Byte)) (s : AESClient CtrCtx), 1 ≤ s.bufsize →
      (∀ p ∈ parts, p.length < 2 ^ 31) →
      ∃ outs : List (List Byte),
        (s.encodeEach (ctrEvp keystream) parts).2 = outs.map Outcome.returned ∧
        outs.flatten = ctrXor (keystream s.encrypt.key s.encrypt.iv)
          s.encrypt.pos parts.flatten
  | [], s, _, _ => ⟨[], rfl, rfl⟩
  | p :: ps, s, hbuf, hlen => by
    obtain ⟨outs, h1, h2⟩ := encodeEach_ctr keystream ps
      { s with encrypt := { s.encrypt with pos := s.encrypt.pos + p.length } } hbuf
      (fun q hq => hlen q (List.mem_cons_of_mem _ hq))
    refine ⟨ctrXor (keystream s.encrypt.key s.encrypt.iv) s.encrypt.pos p :: outs, ?_, ?_⟩
    · simp only [AESClient.encodeEach,
        encode_ctr keystream s hbuf p (hlen p (List.mem_cons_self _ _)), h1, List.map_cons]
    · simp only [List.flatten_cons, ctrXor_append, h2]

theorem ctrEvp_consumes_in_full (keystream : List Byte → List Byte → Nat → Byte)
    (ctx : CtrCtx) (chunk : List Byte) :
    ∃ ctx' out, (ctrEvp keystream).CipherUpdate ctx chunk (chunk.length : Int)
      = some (ctx', out) ∧ out.length = chunk.length := by
  have hneg : ¬ ((chunk.length : Int) < 0) := by omega
  refine ⟨{ ctx with pos := ctx.pos + chunk.length },
    ctrXor (keystream ctx.key ctx.iv) ctx.pos chunk, ?_, ctrXor_length _ _ _⟩
  simp only [ctrEvp, hneg, if_false]

theorem encode_two_pow_31 (keystream : List Byte → List Byte → Nat → Byte)
    (s : AESClient CtrCtx) (hbuf : 1 ≤ s.bufsize) (input : List Byte)
    (hlen : input.length = 2147483648) :
    s.encodeRun (ctrEvp keystream) input
      = ⟨s.encrypt, .thrown .HdfsIOException, [([], -2147483648)]⟩ :=
  cipherRun_two_pow_31 _ _ hbuf _ _ hlen rfl

/-- Claim C2, amended: on the counter-mode primitive, for chunk limits at least 1 and every
byte sequence `b` shorter than `2 ^ 31` bytes, if the decoding session was constructed
with the decrypt key and IV equal to the encrypt key and IV of the encoding session, then
`decode` of `encode b` returns `b`. -/
theorem decode_encode_below_two_pow_31
    (keystream : List Byte → List Byte → Nat → Byte)
    (key iv deckeyA decivA enckeyB encivB : List Byte) (bufA bufB : Int)
    (A B : AESClient CtrCtx) (hbufA : 1 ≤ bufA) (hbufB : 1 ≤ bufB)
    (hA : AESClient.construct (ctrEvp keystream) key iv deckeyA decivA bufA = .ok A)
    (hB : AESClient.construct (ctrEvp keystream) enckeyB encivB key iv bufB = .ok B)
    (b : List Byte) (hlen : b.length < 2 ^ 31) :
    ∃ c, (A.encode (ctrEvp keystream) b).2 = .returned c ∧
      (B.decode (ctrEvp keystream) c).2 = .returned b := by
  obtain ⟨hAe, _, hAb, _⟩ := construct_ctr keystream _ _ _ _ _ A hA
  obtain ⟨_, hBd, hBb, _⟩ := construct_ctr keystream _ _ _ _ _ B hB
  refine ⟨_, by rw [encode_ctr keystream A (by omega) b hlen], ?_⟩
  rw [decode_ctr keystream B (by omega) _ (by rw [ctrXor_length]; exact hlen), hAe, hBd]
  simp only [ctrXor_cancel]

/-- Claim C3, amended: on the counter-mode primitive, for chunk limits at least 1 and a
buffer shorter than `2 ^ 31` bytes, one `encode` of the concatenation of `parts` on a
fresh session returns the concatenation of the outputs of successive `encode` calls, one
per part, on another fresh session with the same encrypt key and IV. -/
theorem encode_streaming_below_two_pow_31
    (keystream : List Byte → List Byte → Nat → Byte)
    (key iv deckey1 deciv1 deckey2 deciv2 : List Byte) (buf1 buf2 : Int)
    (whole pieces : AESClient CtrCtx) (hbuf1 : 1 ≤ buf1) (hbuf2 : 1 ≤ buf2)
    (hwhole : AESClient.construct (ctrEvp keystream) key iv deckey1 deciv1 buf1 = .ok whole)
    (hpieces :
      AESClient.construct (ctrEvp keystream) key iv deckey2 deciv2 buf2 = .ok pieces)
    (parts : List (List Byte)) (hlen : parts.flatten.length < 2 ^ 31) :
    ∃ outs : List (List Byte),
      (pieces.encodeEach (ctrEvp keystream) parts).2 = outs.map Outcome.returned ∧
      (whole.encode (ctrEvp keystream) parts.flatten).2 = .returned outs.flatten := by
  obtain ⟨hwe, _, hwb, _⟩ := construct_ctr keystream _ _ _ _ _ whole hwhole
  obtain ⟨hpe, _, hpb, _⟩ := construct_ctr keystream _ _ _ _ _ pieces hpieces
  obtain ⟨outs, h1, h2⟩ := encodeEach_ctr keystream parts pieces (by omega)
    (fun p hp => Nat.lt_of_le_of_lt (List.sublist_flatten_of_mem hp).length_le hlen)
  refine ⟨outs, h1, ?_⟩
  rw [encode_ctr keystream whole (by omega) _ hlen, h2, hwe, hpe]

theorem whileRemaining_result_length {σ : Type}
    (update : σ → List Byte → Int → Option (σ × List Byte)) (bufsize : Int)
    (input : List Byte) :
    ∀ (fuel : Nat) (ctx : σ) (result : List Byte) (offset remaining : Int)
      (calls : List (List Byte × Int)) (ctx' : σ) (result' : List Byte)
      (offset' remaining' : Int) (calls' : List (List Byte × Int)),
      whileRemaining update bufsize input fuel ctx result offset remaining calls
        = .done ctx' result' offset' remaining' calls' →
      result'.length = result.length := by
  intro fuel
  induction fuel with
  | zero =>
    intro ctx result offset remaining calls ctx' result' offset' remaining' calls' h
    rw [whileRemaining] at h
    split at h
    · simp at h
    · cases h; rfl
  | succ f ih =>
    intro ctx result offset remaining calls ctx' result' offset' remaining' calls' h
    rw [whileRemaining] at h
    split at h
    · simp only at h
      split at h
      · cases h
      · rw [ih _ _ _ _ _ _ _ _ _ _ h, writeAt_length]
    · cases h; rfl

theorem cipherRun_returned_length {σ : Type}
    (update : σ → List Byte → Int → Option (σ × List Byte)) (bufsize : Int) (ctx : σ)
    (input out : List Byte)
    (h : (cipherRun update bufsize ctx input).outcome = .returned out) :
    out.length = input.length := by
  unfold cipherRun at h
  split at h
  · cases h
  · cases h
  · next ctx1 result1 o1 r1 calls1 hloop =>
    have hlen := whileRemaining_result_length update bufsize input _ _ _ _ _ _ _ _ _ _ _ hloop
    rw [List.length_replicate] at hlen
    split at h
    · dsimp only at h
      split at h
      · cases h
      · simp only [Outcome.returned.injEq] at h
        rw [← h, writeAt_length, hlen]
    · simp only [Outcome.returned.injEq] at h
      rw [← h, hlen]

theorem encode_decoffset {σ : Type} (evp : Evp σ) (s : AESClient σ) (input : List Byte) :
    (s.encode evp input).1.decoffset = s.decoffset := rfl

theorem decode_decoffset {σ : Type} (evp : Evp σ) (s : AESClient σ) (input : List Byte) :
    (∀ out, (s.decode evp input).2 = .returned out →
      (s.decode evp input).1.decoffset = s.decoffset + input.length ∧
      out.length = input.length) ∧
    ((∀ out, (s.decode evp input).2 ≠ .returned out) →
      (s.decode evp input).1.decoffset = s.decoffset) := by
  have hlen := cipherRun_returned_length evp.CipherUpdate s.bufsize s.decrypt input
  cases hout : (cipherRun evp.CipherUpdate s.bufsize s.decrypt input).outcome with
  | returned r =>
    have hl := hlen r hout
    simp only [AESClient.decode, AESClient.decodeRun, hout]
    refine ⟨fun out h => ?_, fun h => absurd rfl (h r)⟩
    simp only [Outcome.returned.injEq] at h
    exact ⟨trivial, h ▸ hl⟩
  | thrown e => simp [AESClient.decode, AESClient.decodeRun, hout]
  | outOfFuel => simp [AESClient.decode, AESClient.decodeRun, hout]

theorem callEach_decoffset {σ : Type} (evp : Evp σ) :
    ∀ (calls : List AESCall) (s : AESClient σ),
      (s.callEach evp calls).1.decoffset
        = s.decoffset + decodedLength (s.callEach evp calls).2 ∧
      decodedLength (s.callEach evp calls).2 = consumedLength (s.callEach evp calls).2
  | [], s => by simp [AESClient.callEach, decodedLength, consumedLength]
  | .encode input :: cs, s => by
    obtain ⟨h1, h2⟩ := callEach_decoffset evp cs (s.encode evp input).1
    simp only [AESClient.callEach, AESClient.call, decodedLength, consumedLength]
    exact ⟨by rw [h1, encode_decoffset], h2⟩
  | .decode input :: cs, s => by
    obtain ⟨h1, h2⟩ := callEach_decoffset evp cs (s.decode evp input).1
    obtain ⟨hret, hfail⟩ := decode_decoffset evp s input
    simp only [AESClient.callEach, AESClient.call]
    cases hout : (s.decode evp input).2 with
    | returned out =>
      obtain ⟨hd, hl⟩ := hret out hout
      simp only [decodedLength, consumedLength]
      exact ⟨by rw [h1, hd, hl]; omega, by rw [h2, hl]⟩
    | thrown e =>
      have hd := hfail (fun out h => by rw [hout] at h; cases h)
      simp only [decodedLength, consumedLength]
      exact ⟨by rw [h1, hd], h2⟩
    | outOfFuel =>
      have hd := hfail (fun out h => by rw [hout] at h; cases h)
      simp only [decodedLength, consumedLength]
      exact ⟨by rw [h1, hd], h2⟩

/-- Claim C8: `decoffset` is 0 at construction; after any sequence of `encode` and
`decode` calls on the constructed object it equals the total length of the outputs
`decode` returned, which is the total length of the inputs of those `decode` calls;
an `encode` call leaves it unchanged, and so does a `decode` call that does not return. -/
theorem decoffset_counts_decoded_bytes {σ : Type} (evp : Evp σ)
    (enckey enciv deckey deciv : List Byte) (bufsize : Int) (s : AESClient σ)
    (hs : AESClient.construct evp enckey enciv deckey deciv bufsize = .ok s)
    (calls : List AESCall) :
    s.decoffset = 0 ∧
    (s.callEach evp calls).1.decoffset = decodedLength (s.callEach evp calls).2 ∧
    decodedLength (s.callEach evp calls).2 = consumedLength (s.callEach evp calls).2 ∧
    (∀ (t : AESClient σ) (input : List Byte),
      (t.encode evp input).1.decoffset = t.decoffset) ∧
    (∀ (t : AESClient σ) (input : List Byte),
      (∀ out, (t.decode evp input).2 ≠ .returned out) →
      (t.decode evp input).1.decoffset = t.decoffset) := by
  have h0 : s.decoffset = 0 := by
    simp only [AESClient.construct] at hs
    split at hs
    · cases hs
    · split at hs
      · cases hs
      · cases hs; rfl
  obtain ⟨h1, h2⟩ := callEach_decoffset evp calls s
  refine ⟨h0, by rw [h1, h0]; omega, h2, fun t input => rfl,
    fun t input => (decode_decoffset evp t input).2⟩

/-- Claim C9, amended: for a chunk limit at least 1, an input of `n` bytes with `n` below
`2 ^ 31`, and a primitive that succeeds on every chunk and consumes it in full, the body of
`encode` and of `decode` returns after exactly `ceil (n / bufsize)` calls of the
primitive, every call is given between 1 and `bufsize` bytes, every call but the last
exactly `bufsize`, the chunks concatenate to the input, and the empty input makes no
call. -/
theorem chunking_discipline_below_two_pow_31 {σ : Type} (evp : Evp σ) (self : AESClient σ)
    (input : List Byte) (run : CipherRun σ) (hbuf : 1 ≤ self.bufsize)
    (hlen : input.length < 2 ^ 31)
    (hfull : ∀ ctx chunk, ∃ ctx' out,
      evp.CipherUpdate ctx chunk (chunk.length : Int) = some (ctx', out) ∧
      out.length = chunk.length)
    (hrun : run = self.encodeRun evp input ∨ run = self.decodeRun evp input) :
    (∃ result, run.outcome = .returned result) ∧
    run.calls.length = (input.length + self.bufsize.toNat - 1) / self.bufsize.toNat ∧
    (∀ c ∈ run.calls, 1 ≤ c.2 ∧ c.2 ≤ self.bufsize ∧ (c.1.length : Int) = c.2) ∧
    (∀ c ∈ run.calls.dropLast, c.2 = self.bufsize) ∧
    (run.calls.map Prod.fst).flatten = input ∧
    (input = [] → run.calls = []) := by
  obtain ⟨b, hb⟩ := Int.eq_ofNat_of_zero_le (by omega : 0 ≤ self.bufsize)
  have hb1 : 1 ≤ b := by omega
  have key : ∀ ctx0 : σ, run = cipherRun evp.CipherUpdate (b : Int) ctx0 input →
      (∃ result, run.outcome = .returned result) ∧
      run.calls.length = (input.length + b - 1) / b ∧
      (∀ c ∈ run.calls, 1 ≤ c.1.length ∧ c.1.length ≤ b ∧ c.2 = (c.1.length : Int)) ∧
      (∀ c ∈ run.calls.dropLast, c.1.length = b) ∧
      (run.calls.map Prod.fst).flatten = input := by
    intro ctx0 hr
    obtain ⟨ctx', result', calls, hrun', _, hflat, hall, hinit, hcount⟩ :=
      cipherRun_inv evp.CipherUpdate input b (fun _ _ _ => True) hb1 hlen
        (by
          intro ctx result o k _ hk hok
          have hl : ((input.drop o).take k).length = k := by
            simp only [List.length_take, List.length_drop]
            omega
          obtain ⟨ctx', out, hupd, hlen'⟩ := hfull ctx ((input.drop o).take k)
          rw [hl] at hupd hlen'
          exact ⟨ctx', out, hupd, hlen', trivial⟩)
        ctx0 trivial
    rw [hr, hrun']
    exact ⟨⟨result', rfl⟩, hcount, hall, hinit, hflat⟩
  have hctx : ∃ ctx0 : σ, run = cipherRun evp.CipherUpdate (b : Int) ctx0 input := by
    rcases hrun with h | h
    · exact ⟨self.encrypt, by rw [h, AESClient.encodeRun, hb]⟩
    · exact ⟨self.decrypt, by rw [h, AESClient.decodeRun, hb]⟩
  obtain ⟨ctx0, hr⟩ := hctx
  obtain ⟨h1, h2, h3, h4, h5⟩ := key ctx0 hr
  rw [hb, Int.toNat_ofNat]
  refine ⟨h1, h2, ?_, ?_, h5, ?_⟩
  · intro c hc
    obtain ⟨ha, hb', hc'⟩ := h3 c hc
    rw [hc']
    exact ⟨by exact_mod_cast ha, by exact_mod_cast hb', rfl⟩
  · intro c hc
    have hmem := List.mem_of_mem_dropLast hc
    rw [(h3 c hmem).2.2, h4 c hc]
  · intro hin
    subst hin
    have h0 : run.calls.length = 0 := by
      rw [h2]
      exact Nat.div_eq_of_lt (by simp only [List.length_nil]; omega)
    exact List.length_eq_zero.mp h0

/-! ## Claims on `SaslClient` -/

theorem evaluateChallenge_complete {μ : Type} (gsasl : Gsasl μ) (c : SaslClient μ)
    (challenge : List Byte) :
    (c.evaluateChallenge gsasl challenge).1.isComplete = true ↔
      (c.isComplete = true ∨ c.stepStatus gsasl challenge = GSASL_OK) := by
  simp only [SaslClient.evaluateChallenge, SaslClient.isComplete, SaslClient.stepStatus]
  have hne : GSASL_NEEDS_MORE ≠ GSASL_OK := by decide
  by_cases hok : (gsasl.step c.session challenge).1 = GSASL_OK
  · simp [hok]
  · by_cases hmore : (gsasl.step c.session challenge).1 = GSASL_NEEDS_MORE
    · simp [hmore, hne]
    · simp [hok, hmore]

theorem evaluateEach_complete {μ : Type} (gsasl : Gsasl μ) :
    ∀ (challenges : List (List Byte)) (c : SaslClient μ),
      (c.evaluateEach gsasl challenges).1.isComplete = true ↔
        (c.isComplete = true ∨ ∃ e ∈ (c.evaluateEach gsasl challenges).2, e.1 = GSASL_OK)
  | [], c => by simp [SaslClient.evaluateEach]
  | ch :: chs, c => by
    have ih := evaluateEach_complete gsasl chs (c.evaluateChallenge gsasl ch).1
    have h1 := evaluateChallenge_complete gsasl c ch
    simp only [SaslClient.evaluateEach, List.mem_cons, exists_eq_or_imp]
    rw [ih, h1]
    tauto

theorem construct_not_complete {μ : Type} (gsasl : Gsasl μ)
    (ParseMethod : List Byte → AuthMethod) (encryptedData : Bool)
    (auth : RpcSaslProto_SaslAuth) (token : Token) (principal : List Byte)
    (self : SaslClient μ)
    (h : SaslClient.construct gsasl ParseMethod encryptedData auth token principal
      = .ok self) :
    self.complete = false := by
  simp only [SaslClient.construct] at h
  split at h
  · cases h
  · split at h
    · split at h
      · cases h
      · cases h; rfl
    · split at h
      · cases h
      · cases h; rfl
    · cases h

/-- Claim C5: a constructed `SaslClient` is not complete; after any sequence of
`evaluateChallenge` calls `isComplete()` is true exactly when the mechanism reported
`GSASL_OK` in one of the calls; a step reporting `GSASL_NEEDS_MORE` leaves the flag as it
was; and once the flag is true it stays true through any further calls. -/
theorem isComplete_iff_mechanism_succeeded {μ : Type} (gsasl : Gsasl μ)
    (ParseMethod : List Byte → AuthMethod) (encryptedData : Bool)
    (auth : RpcSaslProto_SaslAuth) (token : Token) (principal : List Byte)
    (self : SaslClient μ)
    (hnew : SaslClient.construct gsasl ParseMethod encryptedData auth token principal
      = .ok self)
    (challenges : List (List Byte)) :
    self.isComplete = false ∧
    ((self.evaluateEach gsasl challenges).1.isComplete = true ↔
      ∃ e ∈ (self.evaluateEach gsasl challenges).2, e.1 = GSASL_OK) ∧
    (∀ (c : SaslClient μ) (challenge : List Byte),
      c.stepStatus gsasl challenge = GSASL_NEEDS_MORE →
      (c.evaluateChallenge gsasl challenge).1.isComplete = c.isComplete) ∧
    (∀ (c : SaslClient μ) (later : List (List Byte)), c.isComplete = true →
      (c.evaluateEach gsasl later).1.isComplete = true) := by
  have h0 : self.isComplete = false :=
    construct_not_complete gsasl ParseMethod encryptedData auth token principal self hnew
  refine ⟨h0, ?_, ?_, ?_⟩
  · rw [evaluateEach_complete, h0]
    simp
  · intro c challenge hmore
    simp only [SaslClient.stepStatus] at hmore
    have hne : GSASL_NEEDS_MORE ≠ GSASL_OK := by decide
    simp [SaslClient.evaluateChallenge, SaslClient.isComplete, hmore, hne]
  · intro c later hc
    exact (evaluateEach_complete gsasl later c).mpr (Or.inl hc)

/-- Claim C6: `evaluateChallenge` throws, and then `AccessControlException`, exactly when
the mechanism reports a status other than `GSASL_NEEDS_MORE` and `GSASL_OK`; when it
throws the completion flag is unchanged; when it does not throw it returns exactly the
bytes the mechanism produced. -/
theorem evaluateChallenge_throws_iff_rejected {μ : Type} (gsasl : Gsasl μ)
    (self : SaslClient μ) (challenge : List Byte) :
    ((self.evaluateChallenge gsasl challenge).2 = .thrown .AccessControlException ↔
      (self.stepStatus gsasl challenge ≠ GSASL_NEEDS_MORE ∧
        self.stepStatus gsasl challenge ≠ GSASL_OK)) ∧
    (∀ e, (self.evaluateChallenge gsasl challenge).2 = .thrown e →
      e = .AccessControlException ∧
      (self.evaluateChallenge gsasl challenge).1.isComplete = self.isComplete) ∧
    ((∀ e, (self.evaluateChallenge gsasl challenge).2 ≠ .thrown e) →
      (self.evaluateChallenge gsasl challenge).2
        = .returned (self.stepOutput gsasl challenge)) := by
  simp only [SaslClient.evaluateChallenge, SaslClient.isComplete, SaslClient.stepStatus,
    SaslClient.stepOutput]
  have hne : GSASL_NEEDS_MORE ≠ GSASL_OK := by decide
  by_cases hok : (gsasl.step self.session challenge).1 = GSASL_OK
  · simp [hok, hne.symm]
  · by_cases hmore : (gsasl.step self.session challenge).1 = GSASL_NEEDS_MORE
    · simp [hmore, hne]
    · simp [hok, hmore]

theorem c_str_eq_of_length (s : List Byte) (h : (c_str s).length = s.length) :
    c_str s = s :=
  (List.takeWhile_prefix _).eq_of_length h

theorem Base64Encode_ok {μ : Type} (gsasl : Gsasl μ) (input out : List Byte)
    (h : Base64Encode gsasl input = .ok out) :
    gsasl.base64_to input = (GSASL_OK, some out) ∧ c_str out = out := by
  unfold Base64Encode at h
  rcases hb : gsasl.base64_to input with ⟨rc, temp⟩
  rw [hb] at h
  simp only at h
  split at h
  · split at h <;> cases h
  · next hrc =>
    have hrc : rc = GSASL_OK := by simpa using hrc
    cases temp with
    | none => cases h
    | some t =>
      simp only at h
      split at h
      · cases h
      · next hlen =>
        have hlen : (c_str t).length = t.length := by simpa using hlen
        have ht := c_str_eq_of_length t hlen
        simp only [Except.ok.injEq] at h
        rw [ht] at h
        subst h
        exact ⟨by rw [hrc], ht⟩

/-- Claim C7: when `initDigestMd5` configures a session, the `GSASL_PASSWORD` it sets is
the Base64 encoding of the token's password; the `GSASL_AUTHID` it sets is the token's
identifier, byte for byte, when `encryptedData` is set, and the Base64 encoding of the
identifier when it is not. -/
theorem initDigestMd5_credentials {μ : Type} (gsasl : Gsasl μ) (encryptedData : Bool)
    (auth : RpcSaslProto_SaslAuth) (token : Token) (session : Gsasl_session μ)
    (h : initDigestMd5 gsasl encryptedData auth token = .ok session) :
    (∃ password, gsasl.base64_to token.password = (GSASL_OK, some password) ∧
      Base64Encode gsasl token.password = .ok password ∧
      session.property .GSASL_PASSWORD = some password) ∧
    (encryptedData = true → session.property .GSASL_AUTHID = some token.identifier) ∧
    (encryptedData = false →
      ∃ identifier, gsasl.base64_to token.identifier = (GSASL_OK, some identifier) ∧
        Base64Encode gsasl token.identifier = .ok identifier ∧
        session.property .GSASL_AUTHID = some identifier) := by
  unfold initDigestMd5 at h
  rcases hstart : gsasl.client_start (c_str auth.mechanism) with ⟨rc, mech⟩
  rw [hstart] at h
  simp only at h
  split at h
  · cases h
  · cases hpw : Base64Encode gsasl token.password with
    | error e => rw [hpw] at h; cases h
    | ok password =>
      rw [hpw] at h
      simp only at h
      obtain ⟨hpw1, hpw2⟩ := Base64Encode_ok gsasl _ _ hpw
      cases encryptedData with
      | true =>
        simp only [Bool.not_true, Bool.false_eq_true, if_false, Except.ok.injEq] at h
        subst h
        refine ⟨⟨password, hpw1, rfl, ?_⟩, fun _ => ?_, fun hf => (by cases hf)⟩
        · simp [gsasl_property_set, gsasl_property_set_raw, hpw2]
        · simp [gsasl_property_set, gsasl_property_set_raw]
      | false =>
        simp only [Bool.not_false, if_true] at h
        cases hid : Base64Encode gsasl token.identifier with
        | error e => rw [hid] at h; cases h
        | ok identifier =>
          rw [hid] at h
          simp only [Except.ok.injEq] at h
          subst h
          obtain ⟨hid1, _⟩ := Base64Encode_ok gsasl _ _ hid
          refine ⟨⟨password, hpw1, rfl, ?_⟩, fun hf => (by cases hf),
            fun _ => ⟨identifier, hid1, rfl, ?_⟩⟩
          · simp [gsasl_property_set, gsasl_property_set_raw, hpw2]
          · simp [gsasl_property_set, gsasl_property_set_raw]

/-! ## Evaluations on concrete inputs -/

/-- Claim C2 as stated fails for a byte sequence of `2 ^ 31` bytes: `int remaining` is
`-2 ^ 31`, the one call of the primitive gets that negative length and fails, and `encode`
throws, so there is no `encode(b)` that `decode` could turn back into `b`. -/
theorem encode_two_pow_31_bytes_throws :
    AESClient.construct (ctrEvp sampleKeystream) sampleKey16 sampleIV sampleKey16 sampleIV 4
      = .ok (ctrSession sampleKey16 sampleIV sampleKey16 sampleIV 4) ∧
    ((ctrSession sampleKey16 sampleIV sampleKey16 sampleIV 4).encode
      (ctrEvp sampleKeystream) (List.replicate 2147483648 1)).2
      = .thrown .HdfsIOException := by
  refine ⟨rfl, ?_⟩
  have h := encode_two_pow_31 sampleKeystream
    (ctrSession sampleKey16 sampleIV sampleKey16 sampleIV 4) (by decide)
    (List.replicate 2147483648 1) (List.length_replicate _ _)
  simp only [AESClient.encode, h]

/-- Claim C2, amended, at sample sessions with chunk limits 2 and 5. -/
theorem decode_encode_below_two_pow_31_witness :
    AESClient.construct (ctrEvp sampleKeystream) sampleKey16 sampleIV otherKey16 sampleIV 2
      = .ok (ctrSession sampleKey16 sampleIV otherKey16 sampleIV 2) ∧
    AESClient.construct (ctrEvp sampleKeystream) otherKey16 sampleIV sampleKey16 sampleIV 5
      = .ok (ctrSession otherKey16 sampleIV sampleKey16 sampleIV 5) ∧
    ∃ c, ((ctrSession sampleKey16 sampleIV otherKey16 sampleIV 2).encode
        (ctrEvp sampleKeystream) [1, 2, 3, 4, 5]).2 = .returned c ∧
      ((ctrSession otherKey16 sampleIV sampleKey16 sampleIV 5).decode
        (ctrEvp sampleKeystream) c).2 = .returned [1, 2, 3, 4, 5] :=
  ⟨rfl, rfl,
    decode_encode_below_two_pow_31 sampleKeystream sampleKey16 sampleIV otherKey16 sampleIV
      otherKey16 sampleIV 2 5 _ _ (by decide) (by decide) rfl rfl [1, 2, 3, 4, 5]
      (by decide)⟩

/-- Claim C3 as stated fails for a buffer of `2 ^ 31` bytes split into two halves: each
half is encoded by its own call, but the one call on the whole buffer throws. -/
theorem encode_two_pow_31_bytes_not_streaming :
    ((ctrSession sampleKey16 sampleIV sampleKey16 sampleIV 4).encode (ctrEvp sampleKeystream)
      [List.replicate 1073741824 1, List.replicate 1073741824 1].flatten).2
      = .thrown .HdfsIOException ∧
    ∃ outs : List (List Byte),
      ((ctrSession sampleKey16 sampleIV sampleKey16 sampleIV 4).encodeEach
        (ctrEvp sampleKeystream)
        [List.replicate 1073741824 1, List.replicate 1073741824 1]).2
        = outs.map Outcome.returned := by
  constructor
  · have h := encode_two_pow_31 sampleKeystream
      (ctrSession sampleKey16 sampleIV sampleKey16 sampleIV 4) (by decide)
      [List.replicate 1073741824 1, List.replicate 1073741824 1].flatten
      (by simp only [List.flatten_cons, List.flatten_nil, List.append_nil,
            List.length_append, List.length_replicate])
    simp only [AESClient.encode, h]
  · obtain ⟨outs, h, _⟩ := encodeEach_ctr sampleKeystream
      [List.replicate 1073741824 1, List.replicate 1073741824 1]
      (ctrSession sampleKey16 sampleIV sampleKey16 sampleIV 4) (by decide)
      (by
        intro p hp
        simp only [List.mem_cons, List.mem_singleton, List.not_mem_nil, or_false,
          or_self] at hp
        rw [hp, List.length_replicate]
        decide)
    exact ⟨outs, h⟩

/-- Claim C3, amended, at a sample: chunk limits 1 and 3, a buffer of `3 * 1 + 5` bytes
split into four parts, one of them empty. -/
theorem encode_streaming_below_two_pow_31_witness :
    ∃ outs : List (List Byte),
      ((ctrSession sampleKey16 sampleIV sampleKey16 sampleIV 3).encodeEach
        (ctrEvp sampleKeystream) [[1, 2], [3], [], [4, 5, 6, 7, 8]]).2
        = outs.map Outcome.returned ∧
      ((ctrSession sampleKey16 sampleIV otherKey16 sampleIV 1).encode
        (ctrEvp sampleKeystream) [[1, 2], [3], [], [4, 5, 6, 7, 8]].flatten).2
        = .returned outs.flatten :=
  encode_streaming_below_two_pow_31 sampleKeystream sampleKey16 sampleIV otherKey16 sampleIV
    sampleKey16 sampleIV 1 3 _ _ (by decide) (by decide) rfl rfl
    [[1, 2], [3], [], [4, 5, 6, 7, 8]] (by decide)

/-- Claim C8 at a sample: a primitive that fails on a chunk starting with `0xff`, chunk
limit 2, and four calls of which the third fails in its second chunk: `decoffset` ends
at `3 + 1`. -/
theorem decoffset_counts_decoded_bytes_witness :
    ((⟨(), (), 0, 0, 2, sampleKey16, sampleIV, sampleKey16, sampleIV, sampleIV⟩ :
        AESClient Unit).callEach sampleFailingEvp
      [.decode [1, 2, 3], .encode [4, 5], .decode [1, 2, 255, 3], .decode [6]]).1.decoffset
      = decodedLength
        ((⟨(), (), 0, 0, 2, sampleKey16, sampleIV, sampleKey16, sampleIV, sampleIV⟩ :
          AESClient Unit).callEach sampleFailingEvp
        [.decode [1, 2, 3], .encode [4, 5], .decode [1, 2, 255, 3], .decode [6]]).2 ∧
    decodedLength
        ((⟨(), (), 0, 0, 2, sampleKey16, sampleIV, sampleKey16, sampleIV, sampleIV⟩ :
          AESClient Unit).callEach sampleFailingEvp
        [.decode [1, 2, 3], .encode [4, 5], .decode [1, 2, 255, 3], .decode [6]]).2 = 4 :=
  ⟨(decoffset_counts_decoded_bytes sampleFailingEvp sampleKey16 sampleIV sampleKey16 sampleIV
    2 _ rfl [.decode [1, 2, 3], .encode [4, 5], .decode [1, 2, 255, 3], .decode [6]]).2.1,
    by decide⟩

/-- Claim C9 as stated fails for an input of `2 ^ 31` bytes with chunk limit 1, on a
primitive that consumes every chunk in full: instead of `2 ^ 31` calls of one byte each
there is one call, given no bytes and the length `-2 ^ 31`, and `encode` throws. -/
theorem chunking_two_pow_31_bytes_one_call :
    (∀ (ctx : CtrCtx) (chunk : List Byte), ∃ ctx' out,
      (ctrEvp sampleKeystream).CipherUpdate ctx chunk (chunk.length : Int)
        = some (ctx', out) ∧ out.length = chunk.length) ∧
    ((ctrSession sampleKey16 sampleIV sampleKey16 sampleIV 1).encodeRun
      (ctrEvp sampleKeystream) (List.replicate 2147483648 0)).calls
      = [([], -2147483648)] ∧
    ((ctrSession sampleKey16 sampleIV sampleKey16 sampleIV 1).encodeRun
      (ctrEvp sampleKeystream) (List.replicate 2147483648 0)).outcome
      = .thrown .HdfsIOException ∧
    ((ctrSession sampleKey16 sampleIV sampleKey16 sampleIV 1).encodeRun
      (ctrEvp sampleKeystream) (List.replicate 2147483648 0)).calls.length
      ≠ (2147483648 + 1 - 1) / 1 := by
  have h := encode_two_pow_31 sampleKeystream
    (ctrSession sampleKey16 sampleIV sampleKey16 sampleIV 1) (by decide)
    (List.replicate 2147483648 0) (List.length_replicate _ _)
  exact ⟨ctrEvp_consumes_in_full sampleKeystream, by rw [h], by rw [h], by rw [h]; decide⟩

/-- Claim C9, amended, at a sample: 7 bytes with chunk limit 3 make 3 calls. -/
theorem chunking_discipline_below_two_pow_31_witness :
    ((ctrSession sampleKey16 sampleIV sampleKey16 sampleIV 3).encodeRun
      (ctrEvp sampleKeystream) [1, 2, 3, 4, 5, 6, 7]).calls.length = (7 + 3 - 1) / 3 ∧
    (((ctrSession sampleKey16 sampleIV sampleKey16 sampleIV 3).encodeRun
      (ctrEvp sampleKeystream) [1, 2, 3, 4, 5, 6, 7]).calls.map Prod.fst).flatten
      = [1, 2, 3, 4, 5, 6, 7] :=
  have h := chunking_discipline_below_two_pow_31 (ctrEvp sampleKeystream)
    (ctrSession sampleKey16 sampleIV sampleKey16 sampleIV 3) [1, 2, 3, 4, 5, 6, 7] _
    (by decide) (by decide)
    (ctrEvp_consumes_in_full sampleKeystream)
    (Or.inl rfl)
  ⟨h.2.1, h.2.2.2.2.1⟩

/-- Claim C5 at a sample: the constructed client is not complete. -/
theorem isComplete_iff_mechanism_succeeded_witness :
    SaslClient.construct sampleGsasl (fun _ => AuthMethod.TOKEN) false sampleAuth sampleToken
      [] = .ok sampleClient ∧
    sampleClient.isComplete = false ∧
    ((sampleClient.evaluateEach sampleGsasl [[1], [255], [2], [3]]).1.isComplete = true ↔
      ∃ e ∈ (sampleClient.evaluateEach sampleGsasl [[1], [255], [2], [3]]).2,
        e.1 = GSASL_OK) :=
  have h := isComplete_iff_mechanism_succeeded sampleGsasl (fun _ => AuthMethod.TOKEN) false
    sampleAuth sampleToken [] sampleClient rfl [[1], [255], [2], [3]]
  ⟨rfl, h.1, h.2.1⟩

/-- Claim C7 at a sample with `encryptedData` set: the identifier, NUL byte included, is
the `GSASL_AUTHID`. -/
theorem initDigestMd5_credentials_witness :
    initDigestMd5 sampleGsasl true sampleAuth sampleToken = .ok sampleSessionRaw ∧
    sampleSessionRaw.property .GSASL_AUTHID = some sampleToken.identifier :=
  ⟨rfl, (initDigestMd5_credentials sampleGsasl true sampleAuth sampleToken sampleSessionRaw
    rfl).2.1 rfl⟩

end Internal
end Hdfs
